import Mathlib

/-!
# gh-act: activity counts, ratios and their differences

A shallow embedding of `main.go` of `x-color/gh-act` and the properties of its
period aggregation and comparison engine.

Conventions of the embedding.

* Go's `int` is the 64-bit two's-complement integer; values are carried as `Int`
  and an operation that can overflow wraps explicitly (`wrapInt`).
* Go's `float64` is IEEE 754 binary64.  A finite binary64 value is carried as the
  rational number it denotes, and every arithmetic operation is the exact
  operation followed by `f64Round`, rounding to nearest with ties to even at 53
  bits of precision.  The exponent range is not limited: the magnitudes `ratio`
  produces from 64-bit integers stay far inside binary64's normal range, so
  neither overflow nor gradual underflow can occur there.
* `time.Time` is carried in two layers.  `Time` is the reading of the calendar and
  the clock, a civil day number and the nanoseconds elapsed in that day; its
  `AddDate` is the date arithmetic of `time.Date`, and it is the whole of
  `time.Time` in a location with a fixed offset from UTC.  `ZonedTime` adds the
  instant and the `Location`, and its `AddDate` resolves the reading in that
  location as `time.Date` does, zone transitions included; in a location with a
  fixed offset the two layers agree (`ZonedTime.wall_AddDate_fixed`).
* The GraphQL client and the colour library are external: the client is a
  state-passing function and the colour library a function parameter.
-/

namespace GhAct

/-! ## Machine integers -/

/-- The value an `int` result takes after 64-bit two's-complement wrap-around. -/
def wrapInt (n : Int) : Int := (n + 2 ^ 63) % 2 ^ 64 - 2 ^ 63

/-- The values of Go's `int` on a 64-bit platform. -/
def InInt (n : Int) : Prop := -(2 ^ 63) ≤ n ∧ n < 2 ^ 63

instance (n : Int) : Decidable (InInt n) := by
  unfold InInt; infer_instance

/-! ## binary64 arithmetic -/

/-- Position of the highest set bit, by halving at most `fuel` times. -/
def log2Aux : Nat → Nat → Nat
  | 0, _ => 0
  | fuel + 1, n => if n < 2 then 0 else log2Aux fuel (n / 2) + 1

/-- Floor of the binary logarithm of a positive natural number. -/
def ilog2 (n : Nat) : Nat := log2Aux n n

/-- Nearest natural number to `n / d`, a tie going to the even neighbour. -/
def roundHalfEven (n d : Nat) : Nat :=
  let q := n / d
  let r := n % d
  if 2 * r < d then q
  else if d < 2 * r then q + 1
  else if q % 2 = 0 then q else q + 1

/-- Exponent `t` of the unit in the last place of the binary64 neighbours of the
positive rational `p / q`: the one with `2 ^ (t + 52) ≤ p / q < 2 ^ (t + 53)`. -/
def ulpExp (p q : Nat) : Int :=
  let lp := ilog2 p
  let lq := ilog2 q
  if q * 2 ^ lp ≤ p * 2 ^ lq then (lp : Int) - lq - 52 else (lp : Int) - lq - 53

/-- Rounding of the positive rational `p / q` to binary64: the quotient is scaled
by `2 ^ (-t)` into `[2 ^ 52, 2 ^ 53)`, rounded to an integer significand, and
scaled back. -/
def f64RoundPos (p q : Nat) : ℚ :=
  let t := ulpExp p q
  let r := roundHalfEven (p * 2 ^ (-t).toNat) (q * 2 ^ t.toNat)
  ((r * 2 ^ t.toNat : Nat) : ℚ) / ((2 ^ (-t).toNat : Nat) : ℚ)

/-- Rounding of an exact result to binary64 (round to nearest, ties to even). -/
def f64Round (x : ℚ) : ℚ :=
  if 0 < x then f64RoundPos x.num.natAbs x.den
  else if x < 0 then -f64RoundPos x.num.natAbs x.den
  else 0

/-- Conversion `float64(n)` of an `int`. -/
def f64OfInt (n : Int) : ℚ := f64Round n

/-- The binary64 sum `a + b`. -/
def f64Add (a b : ℚ) : ℚ := f64Round (a + b)

/-- The binary64 product `a * b`. -/
def f64Mul (a b : ℚ) : ℚ := f64Round (a * b)

/-- The binary64 quotient `a / b` (of a non-zero `b`). -/
def f64Div (a b : ℚ) : ℚ := f64Round (a / b)

/-- Nearest integer, a half rounding away from zero. -/
def roundHalfAway (x : ℚ) : Int :=
  if 0 ≤ x then ⌊x + 1 / 2⌋ else -⌊-x + 1 / 2⌋

/-- Go's `math.Round`: the nearest integer, rounding half away from zero.  The
result is computed exactly from the bits of the argument. -/
def mathRound (x : ℚ) : ℚ := (roundHalfAway x : ℚ)

/-- Conversion `int(x)` of a `float64`: the fraction is discarded (truncation
towards zero).  Go leaves the result unspecified when the truncated value does
not fit an `int`; the embedding returns the truncated value as it is. -/
def intOfF64 (x : ℚ) : Int := if 0 ≤ x then ⌊x⌋ else -⌊-x⌋

/-! ## Ratios -/

/-- The accumulation loop of `ratio`: `total += float64(n)` for each `n`. -/
def sumF64 (nums : List Int) : ℚ :=
  nums.foldl (fun total n => f64Add total (f64OfInt n)) 0

/-- Translation of `ratio`. -/
def ratio (nums : List Int) : List Int :=
  let total := sumF64 nums
  if total = 0 then List.replicate nums.length 0
  else nums.map (fun n => intOfF64 (mathRound (f64Div (f64Mul 100 (f64OfInt n)) total)))

/-- The rounding the specification describes: every ratio is the exact quotient
`100 * value / total` rounded half away from zero. -/
def ratioExact (nums : List Int) : List Int :=
  nums.map (fun (n : Int) => roundHalfAway (100 * (n : ℚ) / (nums.sum : ℚ)))

/-- The rationals binary64 can hold, the exponent range left aside: an integer
significand of at most 53 bits times a power of two. -/
def F64Rep (y : ℚ) : Prop := ∃ (m e : ℤ), |m| ≤ 2 ^ 53 ∧ y = (m : ℚ) * (2 : ℚ) ^ e

/-! ## Formatting (package `fmt`) -/

/-- Decimal text of an `int`, as the verbs `%d` and `%v` and `fmt.Sprint` print it. -/
def fmtInt (n : Int) : String :=
  if n < 0 then "-" ++ Nat.repr n.natAbs else Nat.repr n.natAbs

/-- Decimal text of an `int` under the verb `%+d`: the sign is always printed. -/
def fmtSigned (n : Int) : String :=
  if n < 0 then "-" ++ Nat.repr n.natAbs else "+" ++ Nat.repr n.natAbs

/-- Text under a verb with a width, `%Nv`: spaces on the left up to `w` characters,
nothing removed from a longer text. -/
def padLeft (w : Nat) (s : String) : String :=
  String.mk (List.replicate (w - s.length) ' ') ++ s

/-! ## Colour (package `color`, external) -/

/-- The two attributes of `fatih/color` the program uses. -/
inductive Attribute where
  | FgRed
  | FgGreen
deriving DecidableEq, Repr

/-- What `color.New(attr).Sprintf` does to the text it formatted. -/
abbrev Painter := Attribute → String → String

/-- The colour library with colours switched off: the text is returned as it is. -/
def noColor : Painter := fun _ s => s

/-! ## Differences -/

/-- Translation of `diff`. -/
def diff (paint : Painter) (n m : Int) (unit : String) : String :=
  let d := wrapInt (n - m)
  if d = 0 then "0" ++ unit
  else if d < 0 then paint Attribute.FgRed (fmtSigned d ++ unit)
  else paint Attribute.FgGreen (fmtSigned d ++ unit)

/-- Translation of `countDiff`. -/
def countDiff (paint : Painter) (n m : Int) : String := diff paint n m ""

/-- Translation of `ratioDiff`. -/
def ratioDiff (paint : Painter) (n m : Int) : String := diff paint n m "%"

/-- Translation of `maxLen`. -/
def maxLen (nums : List Int) : Nat :=
  nums.foldl (fun max n => if (fmtInt n).length > max then (fmtInt n).length else max) 0

/-- Translation of the struct `Activity`. -/
structure Activity where
  issues : Int
  prs : Int
  reviews : Int
deriving DecidableEq, Repr

/-- Translation of the struct `activityDiff`. -/
structure activityDiff where
  issue : String
  pr : String
  reviews : String
deriving DecidableEq, Repr

/-- Translation of `countAndDiff`.  The format `padFmt + " (%s)"` is `%Wv (%s)`
with `W = maxLen(...)`. -/
def countAndDiff (paint : Painter) (cur pre : Activity) : activityDiff :=
  let w := maxLen [cur.issues, cur.prs, cur.reviews]
  { issue := padLeft w (fmtInt cur.issues) ++ " (" ++ countDiff paint cur.issues pre.issues ++ ")"
    pr := padLeft w (fmtInt cur.prs) ++ " (" ++ countDiff paint cur.prs pre.prs ++ ")"
    reviews := padLeft w (fmtInt cur.reviews) ++ " (" ++ countDiff paint cur.reviews pre.reviews ++ ")" }

/-- Translation of `ratioAndDiff`.  The format `padFmt + " (%s)"` is `%Wv%% (%s)`
with `W = maxLen(curratio...)`.  `ratio` returns as many values as it is given,
so the three indexes are in range. -/
def ratioAndDiff (paint : Painter) (cur pre : Activity) : activityDiff :=
  let curratio := ratio [cur.issues, cur.prs, cur.reviews]
  let preratio := ratio [pre.issues, pre.prs, pre.reviews]
  let w := maxLen curratio
  { issue := padLeft w (fmtInt (curratio.getD 0 0)) ++ "%" ++ " ("
      ++ ratioDiff paint (curratio.getD 0 0) (preratio.getD 0 0) ++ ")"
    pr := padLeft w (fmtInt (curratio.getD 1 0)) ++ "%" ++ " ("
      ++ ratioDiff paint (curratio.getD 1 0) (preratio.getD 1 0) ++ ")"
    reviews := padLeft w (fmtInt (curratio.getD 2 0)) ++ "%" ++ " ("
      ++ ratioDiff paint (curratio.getD 2 0) (preratio.getD 2 0) ++ ")" }

/-! ## Calendar (package `time`) -/

/-- The reading of a `time.Time` on the calendar and the clock of its location:
the civil day, counted from 1970-01-01, and the nanoseconds elapsed since that
day began.  In a location with a fixed offset from UTC the reading determines
the time; `ZonedTime` carries the instant and the location as well. -/
structure Time where
  day : Int
  nsec : Nat
deriving DecidableEq, Repr

/-- Leap years of the Gregorian calendar. -/
def isLeap (year : Int) : Bool :=
  year % 4 = 0 ∧ (year % 100 ≠ 0 ∨ year % 400 = 0)

/-- Days of the year before the first of `month` (1 to 12). -/
def daysBefore (month : Int) (leap : Bool) : Int :=
  let l : Int := if leap then 1 else 0
  if month ≤ 1 then 0
  else if month = 2 then 31
  else if month = 3 then 59 + l
  else if month = 4 then 90 + l
  else if month = 5 then 120 + l
  else if month = 6 then 151 + l
  else if month = 7 then 181 + l
  else if month = 8 then 212 + l
  else if month = 9 then 243 + l
  else if month = 10 then 273 + l
  else if month = 11 then 304 + l
  else 334 + l

/-- Days from 0001-01-01 to the first of January of `year`. -/
def daysBeforeYear (year : Int) : Int :=
  365 * (year - 1) + (year - 1) / 4 - (year - 1) / 100 + (year - 1) / 400

/-- The function `time.Date`, for a time of day already in range: the month is
normalised into 1 to 12, overflowing into the year, and the day of the month is
counted on from the first of that month, so that October 32 is November 1. -/
def timeDate (year month day : Int) (nsec : Nat) : Time :=
  let y := year + (month - 1) / 12
  let m := (month - 1) % 12 + 1
  { day := daysBeforeYear y + daysBefore m (isLeap y) + (day - 1) - 719162
    nsec := nsec }

/-- Month (1 to 12) of the day of the year `yday` (from 0). -/
def monthOfYday (yday : Int) (leap : Bool) : Int :=
  if yday < daysBefore 2 leap then 1
  else if yday < daysBefore 3 leap then 2
  else if yday < daysBefore 4 leap then 3
  else if yday < daysBefore 5 leap then 4
  else if yday < daysBefore 6 leap then 5
  else if yday < daysBefore 7 leap then 6
  else if yday < daysBefore 8 leap then 7
  else if yday < daysBefore 9 leap then 8
  else if yday < daysBefore 10 leap then 9
  else if yday < daysBefore 11 leap then 10
  else if yday < daysBefore 12 leap then 11
  else 12

/-- The method `Time.Date`: year, month and day of the month of a time. -/
def Time.Date (t : Time) : Int × Int × Int :=
  let z := t.day + 719162
  let era := z / 146097
  let doe := z % 146097
  let c := min (doe / 36524) 3
  let r1 := doe - c * 36524
  let q := r1 / 1461
  let r2 := r1 % 1461
  let y1 := min (r2 / 365) 3
  let yday := r2 - y1 * 365
  let year := era * 400 + c * 100 + q * 4 + y1 + 1
  let month := monthOfYday yday (isLeap year)
  (year, month, yday - daysBefore month (isLeap year) + 1)

/-- The method `Time.AddDate` on the reading of a time: the date fields are
offset and handed to `time.Date` with the time of day unchanged.  This is the
whole method in a location with a fixed offset from UTC; `ZonedTime.AddDate`
adds the resolution of the result in a location with zone transitions. -/
def Time.AddDate (t : Time) (years months days : Int) : Time :=
  let date := t.Date
  timeDate (date.1 + years) (date.2.1 + months) (date.2.2 + days) t.nsec

/-- The helper `appendInt` of `Time.Format`: decimal digits, zeros on the left
up to `width`, a minus sign before them for a negative number. -/
def appendInt (x : Int) (width : Nat) : String :=
  let digits := Nat.repr x.natAbs
  let padded := String.mk (List.replicate (width - digits.length) '0') ++ digits
  if x < 0 then "-" ++ padded else padded

/-- Translation of `dateToStr`: the layout `2006-01-02`. -/
def dateToStr (d : Time) : String :=
  let date := d.Date
  appendInt date.1 4 ++ "-" ++ appendInt date.2.1 2 ++ "-" ++ appendInt date.2.2 2

/-- Translation of the type `agoFn`. -/
abbrev agoFn := Time → Time

/-- Translation of `weekAgo`, on the reading of a time (a location with a fixed
offset from UTC); `ZonedTime.weekAgo` is the translation in any location. -/
def weekAgo (d : Time) : Time := d.AddDate 0 0 (-7)

/-- Translation of `monthAgo`, on the reading of a time (a location with a fixed
offset from UTC); `ZonedTime.monthAgo` is the translation in any location. -/
def monthAgo (d : Time) : Time := d.AddDate 0 (-1) 0

/-- Translation of `yearAgo`, on the reading of a time (a location with a fixed
offset from UTC); `ZonedTime.yearAgo` is the translation in any location. -/
def yearAgo (d : Time) : Time := d.AddDate (-1) 0 0

/-! ## Queries -/

/-- The map `variables` handed to the client: its three entries. -/
structure QueryVars where
  queryForOpenIssue : String
  queryForOpenPR : String
  queryForReviewedPR : String
deriving DecidableEq, Repr

/-- Translation of the struct `ActCountQuery`: the three `IssueCount` fields. -/
structure ActCountQuery where
  OpenIssue : Int
  OpenPr : Int
  ReviewedPr : Int
deriving DecidableEq, Repr

/-- The external GraphQL client: a call to `Query` gets the variables, may change
the state of the world `σ`, fills the query struct and returns an error or none. -/
abbrev GQLClient (σ ε : Type) := QueryVars → σ → (ActCountQuery × Option ε) × σ

/-- The local `variables` of `countActivityQuery` (the word is reserved in
Lean, hence the longer name): the three query strings for one window. -/
def queryVariables (begin fin : Time) : QueryVars :=
  let period := dateToStr begin ++ ".." ++ dateToStr fin
  { queryForOpenIssue := "author:@me is:issue created:" ++ period
    queryForOpenPR := "author:@me is:pr created:" ++ period
    queryForReviewedPR := "-author:@me is:pr reviewed-by:@me updated:" ++ period }

/-- Translation of `countActivityQuery`. -/
def countActivityQuery {σ ε : Type} (client : GQLClient σ ε) (begin fin : Time) (s : σ) :
    (Activity × Option ε) × σ :=
  match client (queryVariables begin fin) s with
  | ((query, err), s1) =>
    match err with
    | some e => ((⟨0, 0, 0⟩, some e), s1)
    | none => ((⟨query.OpenIssue, query.OpenPr, query.ReviewedPr⟩, none), s1)

/-- Translation of `getActivities`. -/
def getActivities {σ ε : Type} (client : GQLClient σ ε) (d : Time) (fn : agoFn) (s : σ) :
    (Activity × Activity × Option ε) × σ :=
  let ago := fn d
  match countActivityQuery client ago d s with
  | ((r1, err), s1) =>
    match err with
    | some e => ((⟨0, 0, 0⟩, ⟨0, 0, 0⟩, some e), s1)
    | none =>
      match countActivityQuery client (fn ago) ago s1 with
      | ((r2, err2), s2) =>
        match err2 with
        | some e => ((⟨0, 0, 0⟩, ⟨0, 0, 0⟩, some e), s2)
        | none => ((r1, r2, none), s2)

/-- A client that also keeps, in the state, the variables of every call made to
it, in order: the instrument that makes the queries of a run observable. -/
def recording {σ ε : Type} (client : GQLClient σ ε) : GQLClient (List QueryVars × σ) ε :=
  fun v ls => ((client v ls.2).1, (ls.1 ++ [v], (client v ls.2).2))

/-! ## Flags, aggregation and output -/

/-- The four command-line flags after `flag.Parse`. -/
structure Flags where
  week : Bool
  month : Bool
  year : Bool
  ratio : Bool
deriving DecidableEq, Repr

/-- The `switch` of `aggregate` that picks the step function `fn`. -/
def selectAgo (flags : Flags) : agoFn :=
  if flags.week then weekAgo
  else if flags.month then monthAgo
  else if flags.year then yearAgo
  else weekAgo

/-- Translation of `aggregate`.  `gqlClient` is what `gh.GQLClient(nil)` returned,
a client or an error, and `now` is what `time.Now()` returned. -/
def aggregate {σ ε : Type} (flags : Flags) (gqlClient : Except ε (GQLClient σ ε)) (now : Time)
    (s : σ) : (Activity × Activity × Option ε) × σ :=
  match gqlClient with
  | Except.error e => ((⟨0, 0, 0⟩, ⟨0, 0, 0⟩, some e), s)
  | Except.ok client => getActivities client now (selectAgo flags) s

/-- Translation of `showActivity`: the text it hands to `fmt.Print`. -/
def showActivity (paint : Painter) (flags : Flags) (cur pre : Activity) : String :=
  let d := if flags.ratio then ratioAndDiff paint cur pre else countAndDiff paint cur pre
  "Issue      \t" ++ d.issue ++ "\n" ++ "PullRequest\t" ++ d.pr ++ "\n"
    ++ "Reviews    \t" ++ d.reviews ++ "\n"

/-- Translation of `act`: the error it returns and the texts written to standard
output, one entry for every call of `fmt.Print`. -/
def act {σ ε : Type} (paint : Painter) (flags : Flags) (gqlClient : Except ε (GQLClient σ ε))
    (now : Time) (s : σ) : (Option ε × List String) × σ :=
  match aggregate flags gqlClient now s with
  | ((cur, pre, err), s1) =>
    match err with
    | some e => ((some e, []), s1)
    | none => ((none, [showActivity paint flags cur pre]), s1)

/-- The method `Time.Before` (in one location): an earlier day, or the same day
and an earlier time of day. -/
def Time.Before (t u : Time) : Prop :=
  t.day < u.day ∨ (t.day = u.day ∧ t.nsec < u.nsec)

instance (t u : Time) : Decidable (t.Before u) := by
  unfold Time.Before; infer_instance

/-- The calendar dates a period `begin..fin` of the search syntax covers: the
range is inclusive at both ends, so these are the days from the day of `begin`
to the day of `fin`. -/
def coversDay (begin fin : Time) (day : Int) : Prop :=
  begin.day ≤ day ∧ day ≤ fin.day

instance (begin fin : Time) (day : Int) : Decidable (coversDay begin fin day) := by
  unfold coversDay; infer_instance

/-- Days of the month `month` (1 to 12) of a year. -/
def daysIn (month : Int) (leap : Bool) : Int :=
  if month = 2 then (if leap then 29 else 28)
  else if month = 4 ∨ month = 6 ∨ month = 9 ∨ month = 11 then 30
  else 31

/-! ## Locations (package `time`) -/

/-- A `time.Location` as `Time.AddDate` uses it: `lookup sec` gives the zone in
use at the instant `sec` (seconds since 1970-01-01 UTC), as its offset in seconds
east of UTC and the instants `start` and `end` between which that zone holds. -/
structure Location where
  lookup : Int → Int × Int × Int

/-- A `time.Time` together with its location: the instant, in seconds since
1970-01-01 UTC and nanoseconds within the second, and the location. -/
structure ZonedTime where
  unix : Int
  nsec : Nat
  loc : Location

/-- What `Time.Date` and `Time.Clock` read off a time in its location: the civil
day and the time of day, as a `Time`. -/
def ZonedTime.wall (t : ZonedTime) : Time :=
  let abs := t.unix + (t.loc.lookup t.unix).1
  { day := abs / 86400, nsec := (abs % 86400).toNat * 1000000000 + t.nsec }

/-- The function `time.Date` in a location, for a time of day `secOfDay` already
in range: the date and the clock are first read as UTC, the zone in use at that
instant is looked up, and when the instant so corrected falls outside that
zone's period the offset of the zone in use there is taken instead. -/
def zonedDate (year month day secOfDay : Int) (nsec : Nat) (loc : Location) : ZonedTime :=
  let unix := (timeDate year month day 0).day * 86400 + secOfDay
  let zone := loc.lookup unix
  if zone.1 ≠ 0 then
    let utc := unix - zone.1
    let offset := if utc < zone.2.1 ∨ utc ≥ zone.2.2 then (loc.lookup utc).1 else zone.1
    { unix := unix - offset, nsec := nsec, loc := loc }
  else { unix := unix, nsec := nsec, loc := loc }

/-- The method `Time.AddDate` in a location: `Date` and `Clock` are read in the
location, the date fields are offset, and `time.Date` resolves the result in the
same location. -/
def ZonedTime.AddDate (t : ZonedTime) (years months days : Int) : ZonedTime :=
  let abs := t.unix + (t.loc.lookup t.unix).1
  let date := Time.Date { day := abs / 86400, nsec := 0 }
  zonedDate (date.1 + years) (date.2.1 + months) (date.2.2 + days) (abs % 86400) t.nsec t.loc

/-- Translation of `weekAgo`, for a time in any location. -/
def ZonedTime.weekAgo (d : ZonedTime) : ZonedTime := d.AddDate 0 0 (-7)

/-- Translation of `monthAgo`, for a time in any location. -/
def ZonedTime.monthAgo (d : ZonedTime) : ZonedTime := d.AddDate 0 (-1) 0

/-- Translation of `yearAgo`, for a time in any location. -/
def ZonedTime.yearAgo (d : ZonedTime) : ZonedTime := d.AddDate (-1) 0 0

/-- A location with one zone, as `time.FixedZone` and `time.UTC` give it. -/
def fixedZone (offset : Int) : Location :=
  { lookup := fun _ => (offset, -(2 ^ 63), 2 ^ 63 - 1) }

/-- The location `America/Havana` between its transitions of 5 November 2023 and
9 March 2025: standard time, five hours west of UTC, until 10 March 2024 05:00
UTC, daylight time, four hours west, until 3 November 2024 05:00 UTC, and then
standard time. -/
def havana : Location :=
  { lookup := fun sec =>
      if sec < 1710046800 then (-18000, 1699160400, 1710046800)
      else if sec < 1730610000 then (-14400, 1710046800, 1730610000)
      else (-18000, 1730610000, 1741496400) }

/-- The location `America/New_York` between its transitions of 5 November 2023
and 9 March 2025: standard time, five hours west of UTC, until 10 March 2024
07:00 UTC, daylight time, four hours west, until 3 November 2024 06:00 UTC, and
then standard time. -/
def newYork : Location :=
  { lookup := fun sec =>
      if sec < 1710054000 then (-18000, 1699164000, 1710054000)
      else if sec < 1730613600 then (-14400, 1710054000, 1730613600)
      else (-18000, 1730613600, 1741503600) }

/-! ## Properties of the binary64 rounding -/

theorem log2Aux_spec (fuel n : Nat) (h1 : 1 ≤ n) (hf : n ≤ fuel) :
    2 ^ log2Aux fuel n ≤ n ∧ n < 2 ^ (log2Aux fuel n + 1) := by
  induction fuel generalizing n with
  | zero => omega
  | succ k ih =>
    unfold log2Aux
    split
    · simp; omega
    · have h := ih (n / 2) (by omega) (by omega)
      rw [pow_succ, pow_succ]
      omega

theorem ilog2_spec (n : Nat) (h1 : 1 ≤ n) : 2 ^ ilog2 n ≤ n ∧ n < 2 ^ (ilog2 n + 1) :=
  log2Aux_spec n n h1 le_rfl

theorem roundHalfEven_spec (n d : Nat) (hd : 0 < d) :
    2 * n ≤ 2 * (roundHalfEven n d * d) + d ∧ 2 * (roundHalfEven n d * d) ≤ 2 * n + d := by
  have h1 := Nat.div_add_mod n d
  have h2 := Nat.mod_lt n hd
  have h3 : (n / d + 1) * d = d * (n / d) + d := by ring
  have h4 : (n / d) * d = d * (n / d) := by ring
  unfold roundHalfEven
  simp only
  split_ifs <;> (first | rw [h3] | rw [h4]) <;> omega

theorem two_zpow_split (t : Int) :
    (2 : ℚ) ^ t = ((2 ^ t.toNat : Nat) : ℚ) / ((2 ^ (-t).toNat : Nat) : ℚ) := by
  rcases le_total 0 t with h | h
  · have h1 : (-t).toNat = 0 := by omega
    rw [h1]
    lift t to ℕ using h
    simp
  · have h1 : t.toNat = 0 := by omega
    rw [h1]
    obtain ⟨k, rfl⟩ : ∃ k : ℕ, t = -(k : ℤ) := ⟨(-t).toNat, by omega⟩
    simp


theorem two_zpow_sub_le_div (a b p q : Nat) (hq : 0 < q) (h : 2 ^ a * q ≤ p * 2 ^ b) :
    (2 : ℚ) ^ ((a : ℤ) - (b : ℤ)) ≤ (p : ℚ) / q := by
  rw [zpow_sub₀ (by norm_num), zpow_natCast, zpow_natCast]
  rw [div_le_div_iff₀ (by positivity) (by exact_mod_cast hq)]
  exact_mod_cast h

theorem div_lt_two_zpow_sub (a b p q : Nat) (hq : 0 < q) (h : p * 2 ^ b < 2 ^ a * q) :
    (p : ℚ) / q < (2 : ℚ) ^ ((a : ℤ) - (b : ℤ)) := by
  rw [zpow_sub₀ (by norm_num), zpow_natCast, zpow_natCast]
  rw [div_lt_div_iff₀ (by exact_mod_cast hq) (by positivity)]
  exact_mod_cast h

theorem ulpExp_spec (p q : Nat) (hp : 0 < p) (hq : 0 < q) :
    (2 : ℚ) ^ (ulpExp p q + 52) ≤ (p : ℚ) / q ∧ (p : ℚ) / q < (2 : ℚ) ^ (ulpExp p q + 53) := by
  obtain ⟨hp1, hp2⟩ := ilog2_spec p hp
  obtain ⟨hq1, hq2⟩ := ilog2_spec q hq
  unfold ulpExp
  simp only
  split_ifs with h
  · constructor
    · have e : ((ilog2 p : ℤ) - (ilog2 q : ℤ) - 52 + 52) = ((ilog2 p : ℕ) : ℤ) - ((ilog2 q : ℕ) : ℤ) := by
        ring
      rw [e]
      exact two_zpow_sub_le_div _ _ _ _ hq (by rw [mul_comm]; exact h)
    · have e : ((ilog2 p : ℤ) - (ilog2 q : ℤ) - 52 + 53) = ((ilog2 p + 1 : ℕ) : ℤ) - ((ilog2 q : ℕ) : ℤ) := by
        push_cast; ring
      rw [e]
      apply div_lt_two_zpow_sub _ _ _ _ hq
      calc p * 2 ^ ilog2 q < 2 ^ (ilog2 p + 1) * 2 ^ ilog2 q :=
            Nat.mul_lt_mul_of_pos_right hp2 (by positivity)
        _ ≤ 2 ^ (ilog2 p + 1) * q := Nat.mul_le_mul_left _ hq1
  · constructor
    · have e : ((ilog2 p : ℤ) - (ilog2 q : ℤ) - 53 + 52) = ((ilog2 p : ℕ) : ℤ) - ((ilog2 q + 1 : ℕ) : ℤ) := by
        push_cast; ring
      rw [e]
      apply two_zpow_sub_le_div _ _ _ _ hq
      calc 2 ^ ilog2 p * q ≤ p * q := Nat.mul_le_mul_right _ hp1
        _ ≤ p * 2 ^ (ilog2 q + 1) := Nat.mul_le_mul_left _ hq2.le
    · have e : ((ilog2 p : ℤ) - (ilog2 q : ℤ) - 53 + 53) = ((ilog2 p : ℕ) : ℤ) - ((ilog2 q : ℕ) : ℤ) := by
        ring
      rw [e]
      apply div_lt_two_zpow_sub _ _ _ _ hq
      rw [mul_comm (2 ^ ilog2 p)]
      omega

theorem f64RoundPos_spec (p q : Nat) (hq : 0 < q) :
    ∃ r : ℕ, f64RoundPos p q = (r : ℚ) * (2 : ℚ) ^ ulpExp p q ∧
      |(r : ℚ) - (p : ℚ) / q / (2 : ℚ) ^ ulpExp p q| ≤ 1 / 2 := by
  set t := ulpExp p q with ht
  refine ⟨roundHalfEven (p * 2 ^ (-t).toNat) (q * 2 ^ t.toNat), ?_, ?_⟩
  · unfold f64RoundPos
    simp only
    rw [← ht, two_zpow_split t]
    push_cast
    ring
  · have hD : 0 < q * 2 ^ t.toNat := by positivity
    obtain ⟨h1, h2⟩ := roundHalfEven_spec (p * 2 ^ (-t).toNat) (q * 2 ^ t.toNat) hD
    set r := roundHalfEven (p * 2 ^ (-t).toNat) (q * 2 ^ t.toNat)
    have hq0 : (0 : ℚ) < q := by exact_mod_cast hq
    have ha : (0 : ℚ) < (2 : ℚ) ^ t.toNat := by positivity
    have hb : (0 : ℚ) < (2 : ℚ) ^ (-t).toNat := by positivity
    have e : (p : ℚ) / q / (2 : ℚ) ^ t = ((p * 2 ^ (-t).toNat : ℕ) : ℚ) / ((q * 2 ^ t.toNat : ℕ) : ℚ) := by
      rw [two_zpow_split t]
      push_cast
      field_simp
    rw [e]
    have hDq : (0 : ℚ) < ((q * 2 ^ t.toNat : ℕ) : ℚ) := by exact_mod_cast hD
    have h1q : (2 : ℚ) * ((p * 2 ^ (-t).toNat : ℕ) : ℚ) ≤ 2 * (r * ((q * 2 ^ t.toNat : ℕ) : ℚ)) + ((q * 2 ^ t.toNat : ℕ) : ℚ) := by
      exact_mod_cast h1
    have h2q : (2 : ℚ) * (r * ((q * 2 ^ t.toNat : ℕ) : ℚ)) ≤ 2 * ((p * 2 ^ (-t).toNat : ℕ) : ℚ) + ((q * 2 ^ t.toNat : ℕ) : ℚ) := by
      exact_mod_cast h2
    generalize ((p * 2 ^ (-t).toNat : ℕ) : ℚ) = N at *
    generalize ((q * 2 ^ t.toNat : ℕ) : ℚ) = D at *
    rw [abs_le]
    constructor
    · rw [neg_le_sub_iff_le_add, div_le_iff₀ hDq]
      linarith
    · rw [sub_le_iff_le_add, ← sub_le_iff_le_add', le_div_iff₀ hDq]
      linarith

theorem f64Round_pos_spec (x : ℚ) (hx : 0 < x) :
    ∃ (t : ℤ) (r : ℕ), (2 : ℚ) ^ (t + 52) ≤ x ∧ x < (2 : ℚ) ^ (t + 53) ∧
      f64Round x = (r : ℚ) * (2 : ℚ) ^ t ∧ |(r : ℚ) - x / (2 : ℚ) ^ t| ≤ 1 / 2 := by
  have hn : 0 < x.num := Rat.num_pos.mpr hx
  have hd : 0 < x.den := x.den_pos
  have hx2 : ((x.num.natAbs : ℕ) : ℚ) / (x.den : ℚ) = x := by
    have h2 : ((x.num.natAbs : ℕ) : ℚ) = (x.num : ℚ) := by
      rw [Nat.cast_natAbs, abs_of_nonneg hn.le]
    rw [h2]
    exact Rat.num_div_den x
  obtain ⟨r, hr1, hr2⟩ := f64RoundPos_spec x.num.natAbs x.den hd
  obtain ⟨hb1, hb2⟩ := ulpExp_spec x.num.natAbs x.den (by omega) hd
  rw [hx2] at hr2 hb1 hb2
  refine ⟨ulpExp x.num.natAbs x.den, r, hb1, hb2, ?_, hr2⟩
  unfold f64Round
  rw [if_pos hx]
  exact hr1

theorem f64Round_zero : f64Round 0 = 0 := by
  unfold f64Round
  simp

theorem f64Round_neg (x : ℚ) : f64Round (-x) = -f64Round x := by
  unfold f64Round
  rcases lt_trichotomy 0 x with h | h | h
  · have h1 : ¬ (0 < -x) := by linarith
    have h2 : -x < 0 := by linarith
    simp [h, h1, h2]
  · subst h
    simp
  · have h1 : (0 < -x) := by linarith
    have h2 : ¬ (0 < x) := by linarith
    simp [h, h1, h2]



theorem F64Rep_neg (y : ℚ) (h : F64Rep y) : F64Rep (-y) := by
  obtain ⟨m, e, hm, rfl⟩ := h
  exact ⟨-m, e, by rwa [abs_neg], by push_cast; ring⟩

theorem scaled_rep_is_int (m k : ℤ) (hm : |m| ≤ 2 ^ 53)
    (hlow : (2 : ℚ) ^ 52 - 1 / 2 < (m : ℚ) * (2 : ℚ) ^ k) :
    ∃ z : ℤ, (m : ℚ) * (2 : ℚ) ^ k = z := by
  rcases le_or_lt 0 k with hk | hk
  · lift k to ℕ using hk
    exact ⟨m * 2 ^ k, by push_cast; rw [zpow_natCast]⟩
  · obtain ⟨j, rfl⟩ : ∃ j : ℕ, k = -((j : ℤ) + 1) := ⟨(-k - 1).toNat, by omega⟩
    have hm2 : m ≤ 2 ^ 53 := (abs_le.mp hm).2
    have hm2q : (m : ℚ) ≤ 2 ^ 53 := by exact_mod_cast hm2
    have e1 : (2 : ℚ) ^ (-((j : ℤ) + 1)) = 1 / (2 * 2 ^ j) := by
      rw [zpow_neg]
      have : ((j : ℤ) + 1) = ((j + 1 : ℕ) : ℤ) := by push_cast; rfl
      rw [this, zpow_natCast, pow_succ]
      field_simp
      ring
    rw [e1] at hlow ⊢
    have hj : (0 : ℚ) < 2 * 2 ^ j := by positivity
    rw [mul_one_div, lt_div_iff₀ hj] at hlow
    rcases Nat.eq_zero_or_pos j with hj0 | hj0
    · subst hj0
      norm_num at hlow
      have h3 : (2 : ℚ) ^ 53 - 1 < m := by norm_num; linarith
      have h4 : (2 : ℤ) ^ 53 - 1 < m := by exact_mod_cast h3
      have h5 : m = 2 ^ 53 := by omega
      exact ⟨2 ^ 52, by rw [h5]; norm_num⟩
    · exfalso
      have h2 : (2 : ℚ) ≤ 2 ^ j := by
        calc (2 : ℚ) = 2 ^ 1 := by norm_num
          _ ≤ 2 ^ j := pow_le_pow_right₀ (by norm_num) hj0
      nlinarith

theorem f64Round_nearest_pos (x y : ℚ) (hx : 0 < x) (hy : F64Rep y) :
    |f64Round x - x| ≤ |y - x| := by
  obtain ⟨t, r, hlo, _, hr, hrd⟩ := f64Round_pos_spec x hx
  obtain ⟨m, e, hm, rfl⟩ := hy
  have hu : (0 : ℚ) < (2 : ℚ) ^ t := by positivity
  by_contra hcon
  push_neg at hcon
  rw [hr] at hcon
  -- scale by the unit in the last place
  have hx1 : (2 : ℚ) ^ 52 ≤ x / (2 : ℚ) ^ t := by
    rw [le_div_iff₀ hu]
    have : (2 : ℚ) ^ (t + 52) = 2 ^ 52 * 2 ^ t := by
      rw [zpow_add₀ (by norm_num)]
      norm_num [mul_comm]
    rw [← this]
    exact hlo
  have hy1 : (m : ℚ) * (2 : ℚ) ^ e = ((m : ℚ) * (2 : ℚ) ^ (e - t)) * (2 : ℚ) ^ t := by
    rw [mul_assoc, ← zpow_add₀ (by norm_num)]
    congr 2
    ring
  have hx2 : x = (x / (2 : ℚ) ^ t) * (2 : ℚ) ^ t := by field_simp
  set x1 := x / (2 : ℚ) ^ t with hx1def
  set y1 := (m : ℚ) * (2 : ℚ) ^ (e - t) with hy1def
  rw [hy1, hx2, ← sub_mul, ← sub_mul, abs_mul, abs_mul, abs_of_pos hu] at hcon
  have hc : |y1 - x1| < |(r : ℚ) - x1| := lt_of_mul_lt_mul_right hcon hu.le
  have hc2 : |y1 - x1| < 1 / 2 := lt_of_lt_of_le hc hrd
  have hlow : (2 : ℚ) ^ 52 - 1 / 2 < y1 := by
    have := (abs_lt.mp hc2).1
    linarith
  obtain ⟨z, hz⟩ := scaled_rep_is_int m (e - t) hm hlow
  have hz1 : y1 = (z : ℚ) := hz
  rw [hz1] at hc hc2
  have hzr : |(z : ℚ) - (r : ℚ)| < 1 := by
    have h1 := abs_sub_le (z : ℚ) x1 (r : ℚ)
    have h2 : |x1 - (r : ℚ)| ≤ 1 / 2 := by rw [abs_sub_comm]; exact hrd
    linarith
  have hzr2 : |z - (r : ℤ)| < 1 := by exact_mod_cast hzr
  have hzr3 : z = (r : ℤ) := by
    have := abs_lt.mp hzr2
    omega
  rw [hzr3] at hc
  simp at hc

theorem f64Round_nearest (x y : ℚ) (hy : F64Rep y) : |f64Round x - x| ≤ |y - x| := by
  rcases lt_trichotomy 0 x with h | h | h
  · exact f64Round_nearest_pos x y h hy
  · subst h
    rw [f64Round_zero]
    simp
  · have h1 := f64Round_nearest_pos (-x) (-y) (by linarith) (F64Rep_neg y hy)
    rw [f64Round_neg] at h1
    have e1 : -f64Round x - -x = -(f64Round x - x) := by ring
    have e2 : -y - -x = -(y - x) := by ring
    rwa [e1, e2, abs_neg, abs_neg] at h1


theorem F64Rep_zero : F64Rep 0 := ⟨0, 0, by norm_num, by norm_num⟩

theorem F64Rep_int (n : ℤ) (h : |n| ≤ 2 ^ 53) : F64Rep (n : ℚ) := ⟨n, 0, h, by simp⟩

theorem f64Round_of_rep (x : ℚ) (h : F64Rep x) : f64Round x = x := by
  have := f64Round_nearest x x h
  simp at this
  linarith

theorem f64Round_le_of_le_rep (x y : ℚ) (hy : F64Rep y) (h : x ≤ y) : f64Round x ≤ y := by
  have h1 := f64Round_nearest x y hy
  rw [abs_of_nonneg (by linarith : 0 ≤ y - x)] at h1
  have h2 := le_abs_self (f64Round x - x)
  linarith

theorem rep_le_f64Round (x y : ℚ) (hy : F64Rep y) (h : y ≤ x) : y ≤ f64Round x := by
  have h1 := f64Round_nearest x y hy
  rw [abs_of_nonpos (by linarith : y - x ≤ 0)] at h1
  have h2 := neg_abs_le (f64Round x - x)
  linarith

theorem f64Round_nonneg (x : ℚ) (h : 0 ≤ x) : 0 ≤ f64Round x :=
  rep_le_f64Round x 0 F64Rep_zero h

theorem F64Rep_f64Round (x : ℚ) : F64Rep (f64Round x) := by
  have key : ∀ z : ℚ, 0 < z → F64Rep (f64Round z) := by
    intro z hz
    obtain ⟨t, r, _, hhi, hr, hrd⟩ := f64Round_pos_spec z hz
    have hu : (0 : ℚ) < (2 : ℚ) ^ t := by positivity
    have h1 : z / (2 : ℚ) ^ t < 2 ^ 53 := by
      rw [div_lt_iff₀ hu]
      have : (2 : ℚ) ^ (t + 53) = 2 ^ 53 * 2 ^ t := by
        rw [zpow_add₀ (by norm_num)]
        norm_num [mul_comm]
      rw [← this]
      exact hhi
    have h2 := (abs_le.mp hrd).2
    have h3 : (r : ℚ) < 2 ^ 53 + 1 := by linarith
    have h4 : r < 2 ^ 53 + 1 := by exact_mod_cast h3
    refine ⟨(r : ℤ), t, ?_, by rw [hr]; norm_num⟩
    rw [abs_of_nonneg (by positivity)]
    have : (r : ℤ) < 2 ^ 53 + 1 := by exact_mod_cast h4
    omega
  rcases lt_trichotomy 0 x with h | h | h
  · exact key x h
  · subst h
    rw [f64Round_zero]
    exact F64Rep_zero
  · have := F64Rep_neg _ (key (-x) (by linarith))
    rwa [f64Round_neg, neg_neg] at this

theorem f64Round_rel_err (x : ℚ) : |f64Round x - x| ≤ |x| / 2 ^ 53 := by
  have key : ∀ z : ℚ, 0 < z → |f64Round z - z| ≤ |z| / 2 ^ 53 := by
    intro z hz
    obtain ⟨t, r, hlo, _, hr, hrd⟩ := f64Round_pos_spec z hz
    have hu : (0 : ℚ) < (2 : ℚ) ^ t := by positivity
    have e1 : f64Round z - z = ((r : ℚ) - z / (2 : ℚ) ^ t) * (2 : ℚ) ^ t := by
      rw [hr]
      field_simp
    have e2 : (2 : ℚ) ^ (t + 52) = 2 ^ 52 * 2 ^ t := by
      rw [zpow_add₀ (by norm_num)]
      norm_num [mul_comm]
    rw [e1, abs_mul, abs_of_pos hu, abs_of_pos hz, le_div_iff₀ (by positivity)]
    rw [e2] at hlo
    have h3 : |(r : ℚ) - z / (2 : ℚ) ^ t| * (2 : ℚ) ^ t ≤ 1 / 2 * (2 : ℚ) ^ t :=
      mul_le_mul_of_nonneg_right hrd hu.le
    nlinarith
  rcases lt_trichotomy 0 x with h | h | h
  · exact key x h
  · subst h
    rw [f64Round_zero]
    simp
  · have := key (-x) (by linarith)
    rw [f64Round_neg] at this
    have e1 : -f64Round x - -x = -(f64Round x - x) := by ring
    rwa [e1, abs_neg, abs_neg] at this



theorem intOfF64_mathRound (x : ℚ) : intOfF64 (mathRound x) = roundHalfAway x := by
  unfold intOfF64 mathRound
  split_ifs with h
  · exact Int.floor_intCast _
  · rw [← Int.cast_neg, Int.floor_intCast, neg_neg]

theorem f64OfInt_exact (n : ℤ) (h : |n| ≤ 2 ^ 53) : f64OfInt n = (n : ℚ) :=
  f64Round_of_rep _ (F64Rep_int n h)

theorem foldl_f64_exact (l : List Int) (hnn : ∀ n ∈ l, 0 ≤ n) (acc : ℤ) (hacc : 0 ≤ acc)
    (hsum : acc + l.sum ≤ 2 ^ 53) :
    l.foldl (fun total n => f64Add total (f64OfInt n)) (acc : ℚ) = ((acc + l.sum : ℤ) : ℚ) := by
  induction l generalizing acc with
  | nil => simp
  | cons n ns ih =>
    have hn : 0 ≤ n := hnn n (List.mem_cons_self _ _)
    have hns : ∀ k ∈ ns, 0 ≤ k := fun k hk => hnn k (List.mem_cons_of_mem _ hk)
    have hs : 0 ≤ ns.sum := List.sum_nonneg hns
    rw [List.sum_cons] at hsum
    rw [List.foldl_cons, List.sum_cons]
    have h1 : f64OfInt n = (n : ℚ) := f64OfInt_exact n (by rw [abs_of_nonneg hn]; omega)
    have h2 : f64Add (acc : ℚ) (f64OfInt n) = ((acc + n : ℤ) : ℚ) := by
      rw [h1]
      unfold f64Add
      rw [← Int.cast_add]
      exact f64Round_of_rep _ (F64Rep_int _ (by rw [abs_of_nonneg (by omega)]; omega))
    rw [h2, ih hns (acc + n) (by omega) (by omega)]
    congr 1
    ring

theorem sumF64_exact (l : List Int) (hnn : ∀ n ∈ l, 0 ≤ n) (hsum : l.sum ≤ 2 ^ 53) :
    sumF64 l = (l.sum : ℚ) := by
  have := foldl_f64_exact l hnn 0 le_rfl (by simpa using hsum)
  simpa [sumF64] using this

theorem F64Rep_half_odd (k : ℤ) (h0 : 0 ≤ k) (h1 : k ≤ 100) : F64Rep ((k : ℚ) - 1 / 2) := by
  refine ⟨2 * k - 1, -1, ?_, ?_⟩
  · rw [abs_le]; constructor <;> omega
  · push_cast
    rw [zpow_neg, zpow_one]
    ring

theorem F64Rep_below_half (k : ℤ) (h0 : 0 ≤ k) (h1 : k ≤ 100) :
    F64Rep ((k : ℚ) + 1 / 2 - 1 / 2 ^ 46) := by
  refine ⟨(2 * k + 1) * 2 ^ 45 - 1, -46, ?_, ?_⟩
  · rw [abs_le]; constructor <;> omega
  · push_cast
    rw [zpow_neg]
    norm_num
    ring

theorem round_f64Div_exact (n T : ℤ) (hn : 0 ≤ n) (hnT : n ≤ T) (hT : 0 < T) (hlt : T < 2 ^ 46) :
    roundHalfAway (f64Round ((n : ℚ) * 100 / (T : ℚ))) = roundHalfAway ((n : ℚ) * 100 / (T : ℚ)) := by
  have hTq : (0 : ℚ) < T := by exact_mod_cast hT
  have hnq : (0 : ℚ) ≤ n := by exact_mod_cast hn
  have hnTq : (n : ℚ) ≤ T := by exact_mod_cast hnT
  set x : ℚ := (n : ℚ) * 100 / (T : ℚ) with hx
  have hx0 : 0 ≤ x := by positivity
  have hx100 : x ≤ 100 := by
    rw [hx, div_le_iff₀ hTq]
    linarith
  have hf0 : 0 ≤ f64Round x := f64Round_nonneg x hx0
  unfold roundHalfAway
  rw [if_pos hx0, if_pos hf0]
  set k : ℤ := ⌊x + 1 / 2⌋ with hk
  have hk1 : (k : ℚ) ≤ x + 1 / 2 := Int.floor_le _
  have hk2 : x + 1 / 2 < (k : ℚ) + 1 := Int.lt_floor_add_one _
  have hk0 : 0 ≤ k := Int.floor_nonneg.mpr (by linarith)
  have hk100 : k ≤ 100 := by
    have : (k : ℚ) < 101 := by linarith
    have : k < 101 := by exact_mod_cast this
    omega
  rw [Int.floor_eq_iff]
  constructor
  · have := rep_le_f64Round x _ (F64Rep_half_odd k hk0 hk100) (by linarith)
    linarith
  · -- the exact quotient stays at least 1 / (2 T) below the half
    have h1 : (n : ℚ) * 200 < (2 * (k : ℚ) + 1) * T := by
      have : x < (k : ℚ) + 1 / 2 := by linarith
      rw [hx, div_lt_iff₀ hTq] at this
      linarith
    have h2 : n * 200 < (2 * k + 1) * T := by exact_mod_cast h1
    have h3 : n * 200 + 1 ≤ (2 * k + 1) * T := by omega
    have h4 : (n : ℚ) * 200 + 1 ≤ (2 * (k : ℚ) + 1) * T := by exact_mod_cast h3
    have h5 : x ≤ (k : ℚ) + 1 / 2 - 1 / (2 * T) := by
      rw [hx, div_le_iff₀ hTq]
      have : ((k : ℚ) + 1 / 2 - 1 / (2 * T)) * T = ((2 * (k : ℚ) + 1) * T - 1) / 2 := by
        field_simp
        ring
      rw [this]
      linarith
    have hTlt : (T : ℚ) < 2 ^ 46 := by exact_mod_cast hlt
    have h6 : (1 : ℚ) / 2 ^ 46 < 1 / T := by
      rw [div_lt_div_iff₀ (by positivity) hTq]
      linarith
    have h7 : (1 : ℚ) / (2 * T) = (1 / T) / 2 := by
      field_simp
      ring
    have hn1 := f64Round_nearest x _ (F64Rep_below_half k hk0 hk100)
    have hn2 := le_abs_self (f64Round x - x)
    rcases le_total x ((k : ℚ) + 1 / 2 - 1 / 2 ^ 46) with hc | hc
    · have ha : |(k : ℚ) + 1 / 2 - 1 / 2 ^ 46 - x| = (k : ℚ) + 1 / 2 - 1 / 2 ^ 46 - x :=
        abs_of_nonneg (by linarith)
      have : (0 : ℚ) < 1 / 2 ^ 46 := by positivity
      rw [ha] at hn1
      linarith
    · have ha : |(k : ℚ) + 1 / 2 - 1 / 2 ^ 46 - x| = -((k : ℚ) + 1 / 2 - 1 / 2 ^ 46 - x) :=
        abs_of_nonpos (by linarith)
      rw [ha] at hn1
      linarith


theorem ratio_length (nums : List Int) : (ratio nums).length = nums.length := by
  unfold ratio
  simp only
  split_ifs <;> simp

theorem foldl_f64_ge (l : List Int) (hnn : ∀ n ∈ l, 0 ≤ n) (acc : ℚ) (hrep : F64Rep acc)
    (hacc : 0 ≤ acc) :
    acc ≤ l.foldl (fun total n => f64Add total (f64OfInt n)) acc ∧
      ∀ n ∈ l, f64OfInt n ≤ l.foldl (fun total n => f64Add total (f64OfInt n)) acc := by
  induction l generalizing acc with
  | nil => simp
  | cons n ns ih =>
    have hn : 0 ≤ n := hnn n (List.mem_cons_self _ _)
    have hns : ∀ k ∈ ns, 0 ≤ k := fun k hk => hnn k (List.mem_cons_of_mem _ hk)
    have hfn : 0 ≤ f64OfInt n := f64Round_nonneg _ (by exact_mod_cast hn)
    have hfr : F64Rep (f64OfInt n) := F64Rep_f64Round _
    have h1 : acc ≤ f64Add acc (f64OfInt n) := rep_le_f64Round _ _ hrep (by linarith)
    have h2 : f64OfInt n ≤ f64Add acc (f64OfInt n) := rep_le_f64Round _ _ hfr (by linarith)
    obtain ⟨h3, h4⟩ := ih hns (f64Add acc (f64OfInt n)) (F64Rep_f64Round _) (by linarith)
    rw [List.foldl_cons]
    refine ⟨by linarith, ?_⟩
    intro k hk
    rcases List.mem_cons.mp hk with rfl | hk
    · linarith
    · exact h4 k hk

theorem ratio_entry_range (f T : ℚ) (hf : 0 ≤ f) (hfT : f ≤ T) (hT : 0 < T) :
    0 ≤ roundHalfAway (f64Div (f64Mul 100 f) T) ∧ roundHalfAway (f64Div (f64Mul 100 f) T) ≤ 100 := by
  unfold f64Div f64Mul
  set a := f64Round (100 * f) with ha
  have ha0 : 0 ≤ a := f64Round_nonneg _ (by positivity)
  have ha1 : a ≤ 100 * f * (1 + 1 / 2 ^ 53) := by
    have h := f64Round_rel_err (100 * f)
    rw [abs_of_nonneg (by positivity : (0 : ℚ) ≤ 100 * f)] at h
    have h2 := le_abs_self (f64Round (100 * f) - 100 * f)
    rw [ha]
    linarith
  have hq0 : 0 ≤ a / T := by positivity
  have hq1 : a / T ≤ 100 * (1 + 1 / 2 ^ 53) := by
    rw [div_le_iff₀ hT]
    nlinarith
  set q := f64Round (a / T) with hq
  have hqq0 : 0 ≤ q := f64Round_nonneg _ hq0
  have hqq1 : q ≤ a / T * (1 + 1 / 2 ^ 53) := by
    have h := f64Round_rel_err (a / T)
    rw [abs_of_nonneg hq0] at h
    have h2 := le_abs_self (f64Round (a / T) - a / T)
    rw [hq]
    linarith
  have hqq2 : q < 100 + 1 / 2 := by
    have : a / T * (1 + 1 / 2 ^ 53) ≤ 100 * (1 + 1 / 2 ^ 53) * (1 + 1 / 2 ^ 53) :=
      mul_le_mul_of_nonneg_right hq1 (by positivity)
    have h3 : (100 : ℚ) * (1 + 1 / 2 ^ 53) * (1 + 1 / 2 ^ 53) < 100 + 1 / 2 := by norm_num
    linarith
  unfold roundHalfAway
  rw [if_pos hqq0]
  constructor
  · exact Int.floor_nonneg.mpr (by linarith)
  · have : ⌊q + 1 / 2⌋ < 101 := Int.floor_lt.mpr (by push_cast; linarith)
    omega

theorem ratio_mem_range (nums : List Int) (hnn : ∀ n ∈ nums, 0 ≤ n) :
    ∀ x ∈ ratio nums, 0 ≤ x ∧ x ≤ 100 := by
  intro x hx
  unfold ratio at hx
  simp only at hx
  split_ifs at hx with h0
  · rw [List.mem_replicate] at hx
    rw [hx.2]
    omega
  · obtain ⟨n, hn, rfl⟩ := List.mem_map.mp hx
    obtain ⟨h1, h2⟩ := foldl_f64_ge nums hnn 0 F64Rep_zero le_rfl
    have hT : 0 < sumF64 nums := lt_of_le_of_ne h1 (Ne.symm h0)
    rw [intOfF64_mathRound]
    exact ratio_entry_range _ _ (f64Round_nonneg _ (by exact_mod_cast hnn n hn)) (h2 n hn) hT

theorem ratio_eq_of_small (nums : List Int) (hnn : ∀ n ∈ nums, 0 ≤ n) (hne : nums.sum ≠ 0)
    (hlt : nums.sum < 2 ^ 46) : ratio nums = ratioExact nums := by
  have hs0 : 0 ≤ nums.sum := List.sum_nonneg hnn
  have hT : 0 < nums.sum := lt_of_le_of_ne hs0 (Ne.symm hne)
  have hsum : sumF64 nums = (nums.sum : ℚ) := sumF64_exact nums hnn (by omega)
  have hTq : (nums.sum : ℚ) ≠ 0 := by exact_mod_cast hne
  unfold ratio ratioExact
  simp only
  rw [hsum, if_neg hTq]
  apply List.map_congr_left
  intro n hn
  have hn0 : 0 ≤ n := hnn n hn
  have hnT : n ≤ nums.sum := List.single_le_sum hnn n hn
  rw [intOfF64_mathRound, f64OfInt_exact n (by rw [abs_of_nonneg hn0]; omega)]
  have h100 : f64Mul 100 (n : ℚ) = ((100 * n : ℤ) : ℚ) := by
    unfold f64Mul
    rw [show (100 : ℚ) * (n : ℚ) = ((100 * n : ℤ) : ℚ) by push_cast; ring]
    exact f64Round_of_rep _ (F64Rep_int _ (by rw [abs_of_nonneg (by omega)]; omega))
  rw [h100]
  unfold f64Div
  have e : (((100 * n : ℤ) : ℚ)) = (n : ℚ) * 100 := by push_cast; ring
  rw [e, mul_comm (100 : ℚ) (n : ℚ)]
  exact round_f64Div_exact n nums.sum hn0 hnT hT hlt


/-! ## Claims about `ratio` -/

/-- C1 (amended): for every list of non-negative counts whose total is non-zero
and below `2 ^ 46`, `ratio` returns at each position the exact quotient
`100 * value / total` rounded half away from zero; in particular
`ratio(6,5,10) = (29,24,48)` and `ratio(7,5,14) = (27,19,54)`. -/
theorem ratio_exact_of_total_lt (nums : List Int) (hnn : ∀ n ∈ nums, 0 ≤ n)
    (hne : nums.sum ≠ 0) (hlt : nums.sum < 2 ^ 46) :
    ratio nums = ratioExact nums ∧
      ratio [6, 5, 10] = [29, 24, 48] ∧ ratio [7, 5, 14] = [27, 19, 54] :=
  ⟨ratio_eq_of_small nums hnn hne hlt, by decide!, by decide!⟩

/-- Witness of C1 at the counts `(6, 5, 10)`. -/
theorem ratio_exact_of_total_lt_witness :
    (∀ n ∈ [(6 : Int), 5, 10], 0 ≤ n) ∧ [(6 : Int), 5, 10].sum ≠ 0 ∧
      [(6 : Int), 5, 10].sum < 2 ^ 46 ∧ ratio [6, 5, 10] = ratioExact [6, 5, 10] :=
  ⟨by decide, by decide, by decide,
    (ratio_exact_of_total_lt [6, 5, 10] (by decide) (by decide) (by decide)).1⟩

/-- Counterexample to C1 as stated: with the non-negative counts
`(48202589761706, 22166154415967, 0)`, whose total is `2 ^ 46 + 9`, the exact
quotient of the first is just below `68.5` and rounds to `68`, but the binary64
quotient is `68.5` and `ratio` returns `69`. -/
theorem ratio_differs_from_exact_at_large_total :
    (∀ n ∈ [(48202589761706 : Int), 22166154415967, 0], 0 ≤ n) ∧
      [(48202589761706 : Int), 22166154415967, 0].sum = 2 ^ 46 + 9 ∧
      ratio [48202589761706, 22166154415967, 0] = [69, 32, 0] ∧
      ratioExact [48202589761706, 22166154415967, 0] = [68, 32, 0] := by
  refine ⟨by decide, by decide, by decide!, by decide!⟩

/-- C2: for every triple of counts `(i, p, r)`, non-negative ints, with
`i + p + r = 0`, `ratio` returns `(0, 0, 0)`, and so it does for every triple of
ints of magnitude at most `2 ^ 53` that add up to `0`; for any list of counts
whose total is `0`, `ratio` returns a list of zeros of the same length as the
input. -/
theorem ratio_zero_of_zero_total (i p r : Int) (hi : 0 ≤ i) (hp : 0 ≤ p) (hr : 0 ≤ r)
    (h : i + p + r = 0) :
    ratio [i, p, r] = [0, 0, 0] ∧
      (∀ a b c : Int, |a| ≤ 2 ^ 53 → |b| ≤ 2 ^ 53 → |c| ≤ 2 ^ 53 → a + b + c = 0 →
        ratio [a, b, c] = [0, 0, 0]) ∧
      (∀ nums : List Int, (∀ n ∈ nums, 0 ≤ n) → nums.sum = 0 →
        ratio nums = List.replicate nums.length 0) := by
  have hall : ∀ nums : List Int, sumF64 nums = 0 → ratio nums = List.replicate nums.length 0 := by
    intro nums h0
    unfold ratio
    simp only
    rw [if_pos h0]
  have hlist : ∀ nums : List Int, (∀ n ∈ nums, 0 ≤ n) → nums.sum = 0 →
      ratio nums = List.replicate nums.length 0 := by
    intro nums hnn h0
    apply hall
    rw [sumF64_exact nums hnn (by rw [h0]; norm_num), h0]
    norm_num
  have htriple : ∀ a b c : Int, |a| ≤ 2 ^ 53 → |b| ≤ 2 ^ 53 → |c| ≤ 2 ^ 53 → a + b + c = 0 →
      ratio [a, b, c] = [0, 0, 0] := by
    intro a b c ha hb hc habc
    have hs : sumF64 [a, b, c] = 0 := by
      unfold sumF64
      simp only [List.foldl_cons, List.foldl_nil]
      rw [f64OfInt_exact a ha, f64OfInt_exact b hb, f64OfInt_exact c hc]
      unfold f64Add
      rw [zero_add, f64Round_of_rep _ (F64Rep_int a ha)]
      have e1 : (a : ℚ) + (b : ℚ) = ((-c : ℤ) : ℚ) := by
        have : a + b = -c := by omega
        exact_mod_cast this
      rw [e1, f64Round_of_rep _ (F64Rep_int (-c) (by rwa [abs_neg]))]
      have e2 : ((-c : ℤ) : ℚ) + (c : ℚ) = 0 := by push_cast; ring
      rw [e2, f64Round_zero]
    simpa using hall [a, b, c] hs
  refine ⟨?_, htriple, hlist⟩
  have e1 : i = 0 := by omega
  have e2 : p = 0 := by omega
  have e3 : r = 0 := by omega
  subst e1 e2 e3
  exact htriple 0 0 0 (by norm_num) (by norm_num) (by norm_num) (by norm_num)

/-- Witness of C2 at the counts `(0, 0, 0)`, with the triple `(5, -2, -3)` and the
list of four zero counts for the other two parts. -/
theorem ratio_zero_of_zero_total_witness :
    ratio [0, 0, 0] = [0, 0, 0] ∧ ratio [5, -2, -3] = [0, 0, 0] ∧
      ratio [0, 0, 0, 0] = [0, 0, 0, 0] :=
  ⟨(ratio_zero_of_zero_total 0 0 0 (by decide) (by decide) (by decide) (by decide)).1,
    (ratio_zero_of_zero_total 0 0 0 (by decide) (by decide) (by decide) (by decide)).2.1
      5 (-2) (-3) (by decide) (by decide) (by decide) (by decide),
    (ratio_zero_of_zero_total 0 0 0 (by decide) (by decide) (by decide) (by decide)).2.2
      [0, 0, 0, 0] (by decide) (by decide)⟩

/-- C3: for every triple of non-negative integers `(i, p, r)`, `ratio` returns
three values and each of them lies in the closed range `[0, 100]`. -/
theorem ratio_in_range (i p r : Int) (hi : 0 ≤ i) (hp : 0 ≤ p) (hr : 0 ≤ r) :
    (ratio [i, p, r]).length = 3 ∧ ∀ x ∈ ratio [i, p, r], 0 ≤ x ∧ x ≤ 100 := by
  refine ⟨by rw [ratio_length]; rfl, ratio_mem_range [i, p, r] ?_⟩
  intro n hn
  simp only [List.mem_cons, List.mem_singleton, List.not_mem_nil, or_false] at hn
  rcases hn with rfl | rfl | rfl <;> assumption

/-- Witness of C3 at the counts `(6, 5, 10)`. -/
theorem ratio_in_range_witness :
    (ratio [6, 5, 10]).length = 3 ∧ ∀ x ∈ ratio [6, 5, 10], 0 ≤ x ∧ x ≤ 100 :=
  ratio_in_range 6 5 10 (by decide) (by decide) (by decide)

/-! ## Differences and rows -/

theorem wrapInt_of_inInt (n : Int) (h : InInt n) : wrapInt n = n := by
  unfold InInt at h
  unfold wrapInt
  omega

theorem wrapInt_sub_ne_zero (n m : Int) (hn : InInt n) (hm : InInt m) (hne : n ≠ m) :
    wrapInt (n - m) ≠ 0 := by
  unfold InInt at hn hm
  unfold wrapInt
  omega

theorem padLeft_length (w : Nat) (s : String) (h : s.length ≤ w) : (padLeft w s).length = w := by
  unfold padLeft
  rw [String.length_append, String.length_mk, List.length_replicate]
  omega

theorem maxLen_three (a b c : Int) :
    maxLen [a, b, c] = max (max (fmtInt a).length (fmtInt b).length) (fmtInt c).length := by
  unfold maxLen
  simp only [List.foldl_cons, List.foldl_nil]
  split_ifs <;> omega

/-- C4: for all ints `n ≠ m` and every unit, with `d` the machine difference
`n - m` (equal to the mathematical difference whenever that fits an `int`),
`diff` renders the sign of `d`, always shown, the decimal digits of `d` and the
unit, coloured red exactly when `d < 0` and green exactly when `d > 0`;
`diff(5, 8, "")` is `-3` in red and `diff(8, 5, "")` is `+3` in green. -/
theorem diff_of_ne (paint : Painter) (n m : Int) (unit : String) (hn : InInt n) (hm : InInt m)
    (hne : n ≠ m) :
    wrapInt (n - m) ≠ 0 ∧
      diff paint n m unit =
        paint (if wrapInt (n - m) < 0 then Attribute.FgRed else Attribute.FgGreen)
          ((if wrapInt (n - m) < 0 then "-" else "+") ++ Nat.repr (wrapInt (n - m)).natAbs
            ++ unit) ∧
      (InInt (n - m) → wrapInt (n - m) = n - m) ∧
      diff paint 5 8 "" = paint Attribute.FgRed "-3" ∧
      diff paint 8 5 "" = paint Attribute.FgGreen "+3" := by
  have h0 := wrapInt_sub_ne_zero n m hn hm hne
  refine ⟨h0, ?_, wrapInt_of_inInt _, ?_, ?_⟩
  · unfold diff fmtSigned
    simp only [if_neg h0]
    split_ifs <;> rfl
  · have e : wrapInt (5 - 8) = -3 := by decide
    unfold diff
    simp only [e]
    rfl
  · have e : wrapInt (8 - 5) = 3 := by decide
    unfold diff
    simp only [e]
    rfl

/-- Witness of C4 at `n = 5`, `m = 8`, with colours switched off. -/
theorem diff_of_ne_witness :
    wrapInt (5 - 8) = -3 ∧ diff noColor 5 8 "%" = "-3%" := by
  have h := diff_of_ne noColor 5 8 "%" (by decide) (by decide) (by decide)
  exact ⟨by decide, by rw [h.2.1]; decide⟩

/-- C5: for every int `n` and every unit, `diff(n, n, unit)` is the text `0`
followed by the unit, whatever the colour library does: no sign, no colour. -/
theorem diff_self (paint : Painter) (n : Int) (unit : String) :
    diff paint n n unit = "0" ++ unit := by
  have e : wrapInt (n - n) = 0 := by rw [sub_self]; decide
  unfold diff
  simp only [e, if_true]

/-- C8: `countAndDiff` produces for each of issues, prs and reviews the decimal
text of the current count, right-aligned with spaces to the width `W`, then
` (`, then `diff(current, previous, "")`, then `)`, where `W` is the largest
decimal width of the three current counts; each value column is exactly `W`
wide and holds the whole decimal text.  For `cur = (6,5,10)`, `pre = (7,5,14)`
and colours off the rows are ` 6 (-1)`, ` 5 (0)`, `10 (-4)`. -/
theorem countAndDiff_rows (paint : Painter) (cur pre : Activity) :
    countAndDiff paint cur pre =
      { issue := padLeft (max (max (fmtInt cur.issues).length (fmtInt cur.prs).length)
            (fmtInt cur.reviews).length) (fmtInt cur.issues)
          ++ " (" ++ diff paint cur.issues pre.issues "" ++ ")"
        pr := padLeft (max (max (fmtInt cur.issues).length (fmtInt cur.prs).length)
            (fmtInt cur.reviews).length) (fmtInt cur.prs)
          ++ " (" ++ diff paint cur.prs pre.prs "" ++ ")"
        reviews := padLeft (max (max (fmtInt cur.issues).length (fmtInt cur.prs).length)
            (fmtInt cur.reviews).length) (fmtInt cur.reviews)
          ++ " (" ++ diff paint cur.reviews pre.reviews "" ++ ")" } ∧
      (∀ c ∈ [cur.issues, cur.prs, cur.reviews],
        (padLeft (max (max (fmtInt cur.issues).length (fmtInt cur.prs).length)
            (fmtInt cur.reviews).length) (fmtInt c)).length =
          max (max (fmtInt cur.issues).length (fmtInt cur.prs).length)
            (fmtInt cur.reviews).length ∧
        padLeft (max (max (fmtInt cur.issues).length (fmtInt cur.prs).length)
            (fmtInt cur.reviews).length) (fmtInt c) =
          String.mk (List.replicate (max (max (fmtInt cur.issues).length (fmtInt cur.prs).length)
            (fmtInt cur.reviews).length - (fmtInt c).length) ' ') ++ fmtInt c) ∧
      countAndDiff noColor ⟨6, 5, 10⟩ ⟨7, 5, 14⟩ = ⟨" 6 (-1)", " 5 (0)", "10 (-4)"⟩ := by
  refine ⟨?_, ?_, by decide⟩
  · unfold countAndDiff countDiff
    simp only [maxLen_three]
  · intro c hc
    refine ⟨padLeft_length _ _ ?_, rfl⟩
    simp only [List.mem_cons, List.mem_singleton, List.not_mem_nil, or_false] at hc
    rcases hc with rfl | rfl | rfl <;> omega


theorem ratio_three (i p r : Int) : ∃ a b c : Int, ratio [i, p, r] = [a, b, c] := by
  have h := ratio_length [i, p, r]
  match hl : ratio [i, p, r] with
  | [a, b, c] => exact ⟨a, b, c, rfl⟩
  | [] => rw [hl] at h; simp at h
  | [_] => rw [hl] at h; simp at h
  | [_, _] => rw [hl] at h; simp at h
  | _ :: _ :: _ :: _ :: _ => rw [hl] at h; simp at h

theorem wrapInt_sub_of_percent (c p : Int) (hc : 0 ≤ c ∧ c ≤ 100) (hp : 0 ≤ p ∧ p ≤ 100) :
    wrapInt (c - p) = c - p := by
  unfold wrapInt
  omega

/-- C9: for activities with non-negative counts, `ratioAndDiff` produces for each
category the current ratio (as `ratio` computes it from the current triple),
right-aligned to the largest decimal width `W` of the three current ratios,
followed by `%`, then ` (`, then `diff(currentRatio, previousRatio, "%")` on the
rounded ratios, whose difference is taken without wrap-around, then `)`.  For
`cur = (6,5,10)`, `pre = (7,5,14)` and colours off the rows are `29% (+2%)`,
`24% (+5%)`, `48% (-6%)`. -/
theorem ratioAndDiff_rows (paint : Painter) (cur pre : Activity)
    (hcur : 0 ≤ cur.issues ∧ 0 ≤ cur.prs ∧ 0 ≤ cur.reviews)
    (hpre : 0 ≤ pre.issues ∧ 0 ≤ pre.prs ∧ 0 ≤ pre.reviews) :
    (∃ c0 c1 c2 p0 p1 p2 : Int,
      ratio [cur.issues, cur.prs, cur.reviews] = [c0, c1, c2] ∧
      ratio [pre.issues, pre.prs, pre.reviews] = [p0, p1, p2] ∧
      ratioAndDiff paint cur pre =
        { issue := padLeft (max (max (fmtInt c0).length (fmtInt c1).length) (fmtInt c2).length)
              (fmtInt c0) ++ "%" ++ " (" ++ diff paint c0 p0 "%" ++ ")"
          pr := padLeft (max (max (fmtInt c0).length (fmtInt c1).length) (fmtInt c2).length)
              (fmtInt c1) ++ "%" ++ " (" ++ diff paint c1 p1 "%" ++ ")"
          reviews := padLeft (max (max (fmtInt c0).length (fmtInt c1).length) (fmtInt c2).length)
              (fmtInt c2) ++ "%" ++ " (" ++ diff paint c2 p2 "%" ++ ")" } ∧
      wrapInt (c0 - p0) = c0 - p0 ∧ wrapInt (c1 - p1) = c1 - p1 ∧
      wrapInt (c2 - p2) = c2 - p2) ∧
    ratioAndDiff noColor ⟨6, 5, 10⟩ ⟨7, 5, 14⟩ = ⟨"29% (+2%)", "24% (+5%)", "48% (-6%)"⟩ := by
  refine ⟨?_, by decide!⟩
  obtain ⟨c0, c1, c2, hc⟩ := ratio_three cur.issues cur.prs cur.reviews
  obtain ⟨p0, p1, p2, hp⟩ := ratio_three pre.issues pre.prs pre.reviews
  have hcr := ratio_mem_range [cur.issues, cur.prs, cur.reviews] (by
    intro n hn
    simp only [List.mem_cons, List.mem_singleton, List.not_mem_nil, or_false] at hn
    rcases hn with rfl | rfl | rfl
    · exact hcur.1
    · exact hcur.2.1
    · exact hcur.2.2)
  have hpr := ratio_mem_range [pre.issues, pre.prs, pre.reviews] (by
    intro n hn
    simp only [List.mem_cons, List.mem_singleton, List.not_mem_nil, or_false] at hn
    rcases hn with rfl | rfl | rfl
    · exact hpre.1
    · exact hpre.2.1
    · exact hpre.2.2)
  rw [hc] at hcr
  rw [hp] at hpr
  refine ⟨c0, c1, c2, p0, p1, p2, hc, hp, ?_, ?_, ?_, ?_⟩
  · unfold ratioAndDiff ratioDiff
    simp only [hc, hp, maxLen_three, List.getD_cons_zero, List.getD_cons_succ]
  · exact wrapInt_sub_of_percent _ _ (hcr c0 (by simp)) (hpr p0 (by simp))
  · exact wrapInt_sub_of_percent _ _ (hcr c1 (by simp)) (hpr p1 (by simp))
  · exact wrapInt_sub_of_percent _ _ (hcr c2 (by simp)) (hpr p2 (by simp))

/-- Witness of C9 at `cur = (6,5,10)`, `pre = (7,5,14)`, with colours switched off. -/
theorem ratioAndDiff_rows_witness :
    ratioAndDiff noColor ⟨6, 5, 10⟩ ⟨7, 5, 14⟩ = ⟨"29% (+2%)", "24% (+5%)", "48% (-6%)"⟩ :=
  (ratioAndDiff_rows noColor ⟨6, 5, 10⟩ ⟨7, 5, 14⟩ (by decide) (by decide)).2


/-! ## Calendar -/

theorem ite_between (c : Prop) [Decidable c] (a b lo hi : Int) (ha : lo ≤ a ∧ a ≤ hi)
    (hb : lo ≤ b ∧ b ≤ hi) : lo ≤ (if c then a else b) ∧ (if c then a else b) ≤ hi := by
  split <;> assumption

theorem monthOfYday_range (yday : Int) (leap : Bool) :
    1 ≤ monthOfYday yday leap ∧ monthOfYday yday leap ≤ 12 := by
  unfold monthOfYday
  repeat' apply ite_between
  all_goals exact ⟨by norm_num, by norm_num⟩

theorem daysBeforeYear_of_parts (era c q y1 : Int) (hc0 : 0 ≤ c) (hc3 : c ≤ 3) (hq0 : 0 ≤ q)
    (hq : q ≤ 24) (hy0 : 0 ≤ y1) (hy3 : y1 ≤ 3) :
    daysBeforeYear (era * 400 + c * 100 + q * 4 + y1 + 1) =
      era * 146097 + c * 36524 + q * 1461 + y1 * 365 := by
  unfold daysBeforeYear
  have e0 : era * 400 + c * 100 + q * 4 + y1 + 1 - 1 = era * 400 + c * 100 + q * 4 + y1 := by ring
  rw [e0]
  have e4 : (era * 400 + c * 100 + q * 4 + y1) / 4 = era * 100 + c * 25 + q := by omega
  have e100 : (era * 400 + c * 100 + q * 4 + y1) / 100 = era * 4 + c := by omega
  have e400 : (era * 400 + c * 100 + q * 4 + y1) / 400 = era := by omega
  rw [e4, e100, e400]
  ring

theorem Date_spec (t : Time) :
    1 ≤ t.Date.2.1 ∧ t.Date.2.1 ≤ 12 ∧
      daysBeforeYear t.Date.1 + daysBefore t.Date.2.1 (isLeap t.Date.1) + (t.Date.2.2 - 1) - 719162
        = t.day := by
  unfold Time.Date
  simp only
  refine ⟨(monthOfYday_range _ _).1, (monthOfYday_range _ _).2, ?_⟩
  generalize hz : t.day + 719162 = z
  have hdoe0 : 0 ≤ z % 146097 := by omega
  have hdoe1 : z % 146097 < 146097 := by omega
  have hz2 : z = (z / 146097) * 146097 + z % 146097 := by omega
  generalize z % 146097 = doe at *
  generalize z / 146097 = era at *
  have hc0 : 0 ≤ min (doe / 36524) 3 := le_min (by omega) (by norm_num)
  have hc3 : min (doe / 36524) 3 ≤ 3 := min_le_right _ _
  have hr1 : 0 ≤ doe - min (doe / 36524) 3 * 36524 ∧ doe - min (doe / 36524) 3 * 36524 ≤ 36524 := by
    rcases min_choice (doe / 36524) 3 with h | h <;> rw [h] <;> omega
  generalize min (doe / 36524) 3 = c at *
  generalize hr1def : doe - c * 36524 = r1 at *
  have hq0 : 0 ≤ r1 / 1461 := by omega
  have hq24 : r1 / 1461 ≤ 24 := by omega
  have hr2 : r1 = (r1 / 1461) * 1461 + r1 % 1461 := by omega
  have hr20 : 0 ≤ r1 % 1461 := by omega
  have hr21 : r1 % 1461 < 1461 := by omega
  generalize r1 / 1461 = q at *
  generalize r1 % 1461 = r2 at *
  have hy0 : 0 ≤ min (r2 / 365) 3 := le_min (by omega) (by norm_num)
  have hy3 : min (r2 / 365) 3 ≤ 3 := min_le_right _ _
  generalize min (r2 / 365) 3 = y1 at *
  rw [daysBeforeYear_of_parts era c q y1 hc0 hc3 hq0 hq24 hy0 hy3]
  omega

theorem timeDate_of_month_in_range (year month day : Int) (nsec : Nat) (h1 : 1 ≤ month)
    (h2 : month ≤ 12) :
    timeDate year month day nsec =
      ⟨daysBeforeYear year + daysBefore month (isLeap year) + (day - 1) - 719162, nsec⟩ := by
  have e1 : (month - 1) / 12 = 0 := by omega
  have e2 : (month - 1) % 12 + 1 = month := by omega
  unfold timeDate
  simp only [e1, e2, add_zero]

theorem AddDate_days (t : Time) (k : Int) : t.AddDate 0 0 k = ⟨t.day + k, t.nsec⟩ := by
  obtain ⟨h1, h2, h3⟩ := Date_spec t
  unfold Time.AddDate
  simp only [add_zero]
  rw [timeDate_of_month_in_range _ _ _ _ h1 h2]
  congr 1
  omega

theorem weekAgo_eq (d : Time) : weekAgo d = ⟨d.day - 7, d.nsec⟩ := by
  unfold weekAgo
  rw [AddDate_days]
  rfl


/-! ## Queries -/

theorem countActivityQuery_err {σ ε : Type} (client : GQLClient σ ε) (begin fin : Time) (s : σ) :
    (countActivityQuery client begin fin s).1.2 = (client (queryVariables begin fin) s).1.2 := by
  unfold countActivityQuery
  rcases h : client (queryVariables begin fin) s with ⟨⟨q, err⟩, s1⟩
  cases err <;> rfl

theorem countActivityQuery_state {σ ε : Type} (client : GQLClient σ ε) (begin fin : Time) (s : σ) :
    (countActivityQuery client begin fin s).2 = (client (queryVariables begin fin) s).2 := by
  unfold countActivityQuery
  rcases h : client (queryVariables begin fin) s with ⟨⟨q, err⟩, s1⟩
  cases err <;> rfl

theorem countActivityQuery_ok {σ ε : Type} (client : GQLClient σ ε) (begin fin : Time) (s : σ)
    (h : (client (queryVariables begin fin) s).1.2 = none) :
    (countActivityQuery client begin fin s).1.1 =
      ⟨(client (queryVariables begin fin) s).1.1.OpenIssue,
        (client (queryVariables begin fin) s).1.1.OpenPr,
        (client (queryVariables begin fin) s).1.1.ReviewedPr⟩ := by
  unfold countActivityQuery
  rcases h2 : client (queryVariables begin fin) s with ⟨⟨q, err⟩, s1⟩
  rw [h2] at h
  simp only at h
  subst h
  rfl

theorem countActivityQuery_failed {σ ε : Type} (client : GQLClient σ ε) (begin fin : Time) (s : σ)
    (e : ε) (h : (client (queryVariables begin fin) s).1.2 = some e) :
    (countActivityQuery client begin fin s).1.1 = ⟨0, 0, 0⟩ := by
  unfold countActivityQuery
  rcases h2 : client (queryVariables begin fin) s with ⟨⟨q, err⟩, s1⟩
  rw [h2] at h
  simp only at h
  subst h
  rfl

theorem getActivities_of_first_failed {σ ε : Type} (client : GQLClient σ ε) (d : Time)
    (fn : agoFn) (s : σ) (e : ε) (h : (countActivityQuery client (fn d) d s).1.2 = some e) :
    getActivities client d fn s =
      ((⟨0, 0, 0⟩, ⟨0, 0, 0⟩, some e), (countActivityQuery client (fn d) d s).2) := by
  rcases h2 : countActivityQuery client (fn d) d s with ⟨⟨r1, err⟩, s1⟩
  rw [h2] at h
  simp only at h
  subst h
  unfold getActivities
  simp only [h2]

theorem getActivities_of_second_failed {σ ε : Type} (client : GQLClient σ ε) (d : Time)
    (fn : agoFn) (s : σ) (e : ε) (h1 : (countActivityQuery client (fn d) d s).1.2 = none)
    (h : (countActivityQuery client (fn (fn d)) (fn d)
      (countActivityQuery client (fn d) d s).2).1.2 = some e) :
    getActivities client d fn s =
      ((⟨0, 0, 0⟩, ⟨0, 0, 0⟩, some e),
        (countActivityQuery client (fn (fn d)) (fn d) (countActivityQuery client (fn d) d s).2).2) := by
  rcases h2 : countActivityQuery client (fn d) d s with ⟨⟨r1, err⟩, s1⟩
  rw [h2] at h h1
  simp only at h h1
  subst h1
  rcases h3 : countActivityQuery client (fn (fn d)) (fn d) s1 with ⟨⟨r2, err2⟩, s2⟩
  rw [h3] at h
  simp only at h
  subst h
  unfold getActivities
  simp only [h2, h3]

theorem getActivities_of_both_ok {σ ε : Type} (client : GQLClient σ ε) (d : Time)
    (fn : agoFn) (s : σ) (h1 : (countActivityQuery client (fn d) d s).1.2 = none)
    (h : (countActivityQuery client (fn (fn d)) (fn d)
      (countActivityQuery client (fn d) d s).2).1.2 = none) :
    getActivities client d fn s =
      (((countActivityQuery client (fn d) d s).1.1,
        (countActivityQuery client (fn (fn d)) (fn d) (countActivityQuery client (fn d) d s).2).1.1,
        none),
        (countActivityQuery client (fn (fn d)) (fn d) (countActivityQuery client (fn d) d s).2).2) := by
  rcases h2 : countActivityQuery client (fn d) d s with ⟨⟨r1, err⟩, s1⟩
  rw [h2] at h h1
  simp only at h h1
  subst h1
  rcases h3 : countActivityQuery client (fn (fn d)) (fn d) s1 with ⟨⟨r2, err2⟩, s2⟩
  rw [h3] at h
  simp only at h
  subst h
  unfold getActivities
  simp only [h2, h3]

theorem recording_err {σ ε : Type} (client : GQLClient σ ε) (v : QueryVars)
    (ls : List QueryVars × σ) : (recording client v ls).1 = (client v ls.2).1 := rfl

theorem countActivityQuery_recording_log {σ ε : Type} (client : GQLClient σ ε)
    (begin fin : Time) (log : List QueryVars) (s : σ) :
    (countActivityQuery (recording client) begin fin (log, s)).2 =
      (log ++ [queryVariables begin fin], (countActivityQuery client begin fin s).2) := by
  rw [countActivityQuery_state, countActivityQuery_state]
  rfl

theorem getActivities_recording_log {σ ε : Type} (client : GQLClient σ ε) (d : Time)
    (fn : agoFn) (s : σ) :
    (getActivities (recording client) d fn ([], s)).2.1 =
      queryVariables (fn d) d ::
        (if (client (queryVariables (fn d) d) s).1.2.isNone
          then [queryVariables (fn (fn d)) (fn d)] else []) := by
  have herr : (countActivityQuery (recording client) (fn d) d ([], s)).1.2 =
      (client (queryVariables (fn d) d) s).1.2 := by
    rw [countActivityQuery_err]
    rfl
  have hst := countActivityQuery_recording_log client (fn d) d [] s
  rcases h1 : (client (queryVariables (fn d) d) s).1.2 with _ | e
  · rw [h1] at herr
    simp only [Option.isNone_none, if_true]
    rcases h2 : (countActivityQuery (recording client) (fn (fn d)) (fn d)
        (countActivityQuery (recording client) (fn d) d ([], s)).2).1.2 with _ | e2
    · rw [getActivities_of_both_ok _ _ _ _ herr h2, hst, countActivityQuery_recording_log]
      rfl
    · rw [getActivities_of_second_failed _ _ _ _ e2 herr h2, hst,
        countActivityQuery_recording_log]
      rfl
  · rw [h1] at herr
    simp only [Option.isNone_some, Bool.false_eq_true, if_false]
    rw [getActivities_of_first_failed _ _ _ _ e herr, hst]
    rfl


theorem appendInt_length (x : Int) (w : Nat) (hx : 0 ≤ x) (hw : 0 < w) (hlt : x < 10 ^ w) :
    (appendInt x w).length = w := by
  have h1 : x.natAbs < 10 ^ w := by
    have : ((x.natAbs : ℕ) : ℤ) < ((10 ^ w : ℕ) : ℤ) := by
      rw [Int.natAbs_of_nonneg hx]
      exact_mod_cast hlt
    exact_mod_cast this
  have h2 := Nat.repr_length x.natAbs w hw h1
  unfold appendInt
  simp only [if_neg (not_lt.mpr hx)]
  rw [String.length_append, String.length_mk, List.length_replicate]
  omega

theorem dayOfMonth_range_fin : ∀ (leap : Bool) (n : Fin 366),
    1 ≤ ((n : Nat) : Int) - daysBefore (monthOfYday ((n : Nat) : Int) leap) leap + 1 ∧
      ((n : Nat) : Int) - daysBefore (monthOfYday ((n : Nat) : Int) leap) leap + 1 ≤ 32 := by
  decide!

theorem dayOfMonth_range (yday : Int) (leap : Bool) (h0 : 0 ≤ yday) (h1 : yday ≤ 365) :
    1 ≤ yday - daysBefore (monthOfYday yday leap) leap + 1 ∧
      yday - daysBefore (monthOfYday yday leap) leap + 1 ≤ 32 := by
  have h := dayOfMonth_range_fin leap ⟨yday.toNat, by omega⟩
  have e : ((yday.toNat : Nat) : Int) = yday := Int.toNat_of_nonneg h0
  simp only [e] at h
  exact h

theorem Date_day_range (t : Time) : 1 ≤ t.Date.2.2 ∧ t.Date.2.2 ≤ 32 := by
  unfold Time.Date
  simp only
  apply dayOfMonth_range
  · generalize ((t.day + 719162) % 146097 -
      min ((t.day + 719162) % 146097 / 36524) 3 * 36524) % 1461 = r2
    rcases min_choice (r2 / 365) 3 with h | h <;> rw [h] <;> omega
  · have hr : ∀ r1 : Int, 0 ≤ r1 % 1461 ∧ r1 % 1461 < 1461 := fun r1 => by omega
    have := hr ((t.day + 719162) % 146097 - min ((t.day + 719162) % 146097 / 36524) 3 * 36524)
    generalize ((t.day + 719162) % 146097 -
      min ((t.day + 719162) % 146097 / 36524) 3 * 36524) % 1461 = r2 at *
    rcases min_choice (r2 / 365) 3 with h | h <;> rw [h] <;> omega

theorem dateToStr_length (t : Time) (h0 : 0 ≤ t.Date.1) (h1 : t.Date.1 ≤ 9999) :
    (dateToStr t).length = 10 := by
  obtain ⟨hm1, hm2, _⟩ := Date_spec t
  obtain ⟨hd1, hd2⟩ := Date_day_range t
  unfold dateToStr
  simp only [String.length_append]
  rw [appendInt_length _ 4 h0 (by norm_num) (by norm_num; omega),
    appendInt_length _ 2 (by omega) (by norm_num) (by norm_num; omega),
    appendInt_length _ 2 (by omega) (by norm_num) (by norm_num; omega)]
  rfl

/-! ## Claims about the queries -/

/-- C7: with `e1` the error of the client's query for the current window and `e2`
the error of its query for the previous window (in the state the first query
leaves), `getActivities` returns an error exactly when `e1` or `e2` is one; the
error returned is the client's error unchanged and both activities are then
the zero `Activity`, also when the current-window query had succeeded; when both
queries succeed the counts of the current window come first and those of the
previous window second. -/
theorem getActivities_error_iff {σ ε : Type} (client : GQLClient σ ε) (d : Time) (fn : agoFn)
    (s : σ) :
    ((getActivities client d fn s).1.2.2 ≠ none ↔
        ((client (queryVariables (fn d) d) s).1.2 ≠ none ∨
          (client (queryVariables (fn (fn d)) (fn d))
            (client (queryVariables (fn d) d) s).2).1.2 ≠ none)) ∧
      (∀ e : ε, (getActivities client d fn s).1.2.2 = some e →
        (getActivities client d fn s).1.1 = ⟨0, 0, 0⟩ ∧
        (getActivities client d fn s).1.2.1 = ⟨0, 0, 0⟩ ∧
        ((client (queryVariables (fn d) d) s).1.2 = some e ∨
          ((client (queryVariables (fn d) d) s).1.2 = none ∧
            (client (queryVariables (fn (fn d)) (fn d))
              (client (queryVariables (fn d) d) s).2).1.2 = some e))) ∧
      ((client (queryVariables (fn d) d) s).1.2 = none →
        (client (queryVariables (fn (fn d)) (fn d))
          (client (queryVariables (fn d) d) s).2).1.2 = none →
        (getActivities client d fn s).1 =
          (⟨(client (queryVariables (fn d) d) s).1.1.OpenIssue,
            (client (queryVariables (fn d) d) s).1.1.OpenPr,
            (client (queryVariables (fn d) d) s).1.1.ReviewedPr⟩,
           ⟨(client (queryVariables (fn (fn d)) (fn d))
              (client (queryVariables (fn d) d) s).2).1.1.OpenIssue,
            (client (queryVariables (fn (fn d)) (fn d))
              (client (queryVariables (fn d) d) s).2).1.1.OpenPr,
            (client (queryVariables (fn (fn d)) (fn d))
              (client (queryVariables (fn d) d) s).2).1.1.ReviewedPr⟩,
           none)) := by
  have herr1 := countActivityQuery_err client (fn d) d s
  have hst1 := countActivityQuery_state client (fn d) d s
  have herr2 := countActivityQuery_err client (fn (fn d)) (fn d)
    (countActivityQuery client (fn d) d s).2
  rw [hst1] at herr2
  rcases h1 : (client (queryVariables (fn d) d) s).1.2 with _ | e1
  · rw [h1] at herr1
    rcases h2 : (client (queryVariables (fn (fn d)) (fn d))
        (client (queryVariables (fn d) d) s).2).1.2 with _ | e2
    · rw [h2] at herr2
      rw [← hst1] at herr2
      have hg := getActivities_of_both_ok client d fn s herr1 herr2
      have ho1 := countActivityQuery_ok client (fn d) d s h1
      have ho2 := countActivityQuery_ok client (fn (fn d)) (fn d) _ h2
      rw [← hst1] at ho2
      refine ⟨by simp [hg], ?_, ?_⟩
      · intro e he
        rw [hg] at he
        simp at he
      · intro _ _
        rw [hg, ho1, ho2, hst1]
    · rw [h2] at herr2
      rw [← hst1] at herr2
      have hg := getActivities_of_second_failed client d fn s e2 herr1 herr2
      refine ⟨by simp [hg], ?_, ?_⟩
      · intro e he
        rw [hg] at he ⊢
        simp only [Option.some.injEq] at he
        subst he
        exact ⟨rfl, rfl, Or.inr ⟨rfl, rfl⟩⟩
      · intro _ hc
        simp at hc
  · rw [h1] at herr1
    have hg := getActivities_of_first_failed client d fn s e1 herr1
    refine ⟨by simp [hg], ?_, ?_⟩
    · intro e he
      rw [hg] at he ⊢
      simp only [Option.some.injEq] at he
      subst he
      exact ⟨rfl, rfl, Or.inl rfl⟩
    · intro hc
      simp at hc

/-- C10: for every window `(begin, fin)`, `countActivityQuery` calls the client
once, with three query strings that carry the same period
`dateToStr(begin) + ".." + dateToStr(fin)`; a date of a year from 0 to 9999 is
formatted in 10 characters, as in `2024-03-15`; and when the client returns no
error the activity holds the counts of the issue, pull-request and
reviewed-pull-request queries, in this order. -/
theorem countActivityQuery_queries {σ ε : Type} (client : GQLClient σ ε) (begin fin : Time)
    (s : σ) :
    queryVariables begin fin =
        { queryForOpenIssue :=
            "author:@me is:issue created:" ++ (dateToStr begin ++ ".." ++ dateToStr fin)
          queryForOpenPR :=
            "author:@me is:pr created:" ++ (dateToStr begin ++ ".." ++ dateToStr fin)
          queryForReviewedPR :=
            "-author:@me is:pr reviewed-by:@me updated:"
              ++ (dateToStr begin ++ ".." ++ dateToStr fin) } ∧
      (countActivityQuery (recording client) begin fin ([], s)).2.1 =
        [queryVariables begin fin] ∧
      ((client (queryVariables begin fin) s).1.2 = none →
        (countActivityQuery client begin fin s).1 =
          (⟨(client (queryVariables begin fin) s).1.1.OpenIssue,
            (client (queryVariables begin fin) s).1.1.OpenPr,
            (client (queryVariables begin fin) s).1.1.ReviewedPr⟩, none)) ∧
      (∀ t : Time, 0 ≤ t.Date.1 → t.Date.1 ≤ 9999 →
        dateToStr t = appendInt t.Date.1 4 ++ "-" ++ appendInt t.Date.2.1 2 ++ "-"
            ++ appendInt t.Date.2.2 2 ∧
          (appendInt t.Date.1 4).length = 4 ∧ (appendInt t.Date.2.1 2).length = 2 ∧
          (appendInt t.Date.2.2 2).length = 2 ∧ (dateToStr t).length = 10) ∧
      dateToStr (timeDate 2024 3 15 0) = "2024-03-15" := by
  refine ⟨rfl, ?_, ?_, ?_, by decide⟩
  · rw [countActivityQuery_recording_log]
    rfl
  · intro h
    have h1 := countActivityQuery_ok client begin fin s h
    have h2 := countActivityQuery_err client begin fin s
    rw [h] at h2
    exact Prod.ext h1 h2
  · intro t h0 h1
    obtain ⟨hm1, hm2, _⟩ := Date_spec t
    obtain ⟨hd1, hd2⟩ := Date_day_range t
    exact ⟨rfl, appendInt_length _ 4 h0 (by norm_num) (by norm_num; omega),
      appendInt_length _ 2 (by omega) (by norm_num) (by norm_num; omega),
      appendInt_length _ 2 (by omega) (by norm_num) (by norm_num; omega),
      dateToStr_length t h0 h1⟩

/-! ## Claims about the flags, the output and the order of the queries -/

theorem getActivities_error_of_failure {σ ε : Type} (client : GQLClient σ ε) (d : Time)
    (fn : agoFn) (s : σ) (e : ε)
    (h : (client (queryVariables (fn d) d) s).1.2 = some e ∨
      ((client (queryVariables (fn d) d) s).1.2 = none ∧
        (client (queryVariables (fn (fn d)) (fn d))
          (client (queryVariables (fn d) d) s).2).1.2 = some e)) :
    (getActivities client d fn s).1 = (⟨0, 0, 0⟩, ⟨0, 0, 0⟩, some e) := by
  have herr1 := countActivityQuery_err client (fn d) d s
  have hst1 := countActivityQuery_state client (fn d) d s
  rcases h with h | ⟨h1, h2⟩
  · rw [h] at herr1
    rw [getActivities_of_first_failed client d fn s e herr1]
  · rw [h1] at herr1
    have herr2 : (countActivityQuery client (fn (fn d)) (fn d)
        (countActivityQuery client (fn d) d s).2).1.2 = some e := by
      rw [countActivityQuery_err, hst1]
      exact h2
    rw [getActivities_of_second_failed client d fn s e herr1 herr2]

/-- C11: for every combination of the period flags the step function `aggregate`
uses is `weekAgo` if `week` is set, otherwise `monthAgo` if `month` is set,
otherwise `yearAgo` if `year` is set, otherwise `weekAgo`; the choice itself
never fails: with a client at hand `aggregate` is `getActivities` with the
chosen step, whatever the flags. -/
theorem aggregate_step (flags : Flags) :
    selectAgo flags =
        (if flags.week = true then weekAgo
          else if flags.month = true then monthAgo
          else if flags.year = true then yearAgo
          else weekAgo) ∧
      (∀ m y r : Bool, selectAgo ⟨true, m, y, r⟩ = weekAgo) ∧
      (∀ y r : Bool, selectAgo ⟨false, true, y, r⟩ = monthAgo) ∧
      (∀ r : Bool, selectAgo ⟨false, false, true, r⟩ = yearAgo) ∧
      (∀ r : Bool, selectAgo ⟨false, false, false, r⟩ = weekAgo) ∧
      (∀ (σ ε : Type) (client : GQLClient σ ε) (now : Time) (s : σ),
        aggregate flags (Except.ok client) now s =
          getActivities client now (selectAgo flags) s) := by
  refine ⟨rfl, fun _ _ _ => rfl, fun _ _ => rfl, fun _ => rfl, fun _ => rfl, ?_⟩
  intro σ ε client now s
  rfl

/-- C12: if the client's query fails, for the current window or, after that one
succeeded, for the previous window, `act` returns that error and writes nothing
to standard output: `showActivity` is not called. -/
theorem act_of_query_failure {σ ε : Type} (paint : Painter) (flags : Flags)
    (client : GQLClient σ ε) (now : Time) (s : σ) (e : ε)
    (h : (client (queryVariables (selectAgo flags now) now) s).1.2 = some e ∨
      ((client (queryVariables (selectAgo flags now) now) s).1.2 = none ∧
        (client (queryVariables (selectAgo flags (selectAgo flags now)) (selectAgo flags now))
          (client (queryVariables (selectAgo flags now) now) s).2).1.2 = some e)) :
    (act paint flags (Except.ok client) now s).1 = (some e, []) := by
  have hg := getActivities_error_of_failure client now (selectAgo flags) s e h
  unfold act aggregate
  simp only
  rcases hq : getActivities client now (selectAgo flags) s with ⟨⟨cur, pre, err⟩, s1⟩
  rw [hq] at hg
  simp only [Prod.mk.injEq] at hg
  obtain ⟨_, _, rfl⟩ := hg
  rfl

/-- Witness of C12: a client that answers the current window with `(6, 5, 10)`
and fails on the previous window; `act` returns the failure and prints nothing. -/
theorem act_of_query_failure_witness :
    (act noColor ⟨false, false, false, false⟩
      (Except.ok (fun (_ : QueryVars) (n : Nat) =>
        ((⟨6, 5, 10⟩, if n = 0 then none else some "rate limit"), n + 1)))
      (timeDate 2024 3 15 0) 0).1 = (some "rate limit", []) :=
  act_of_query_failure noColor ⟨false, false, false, false⟩
    (fun (_ : QueryVars) (n : Nat) =>
      ((⟨6, 5, 10⟩, if n = 0 then none else some "rate limit"), n + 1))
    (timeDate 2024 3 15 0) 0 "rate limit" (Or.inr ⟨rfl, rfl⟩)

/-- C13: the three ratios need not sum to 100: the counts `(6, 5, 10)` have the
ratios `29, 24, 48`, whose sum is `101`. -/
theorem ratio_sum_not_always_100 :
    ∃ i p r : Int, 0 ≤ i ∧ 0 ≤ p ∧ 0 ≤ r ∧ i + p + r ≠ 0 ∧
      ratio [i, p, r] = [29, 24, 48] ∧ (ratio [i, p, r]).sum ≠ 100 :=
  ⟨6, 5, 10, by decide, by decide, by decide, by decide, by decide!, by decide!⟩

/-- C19: over any client the call for the current window comes first; if it
fails, `getActivities` makes exactly that one call and never queries the
previous window; a second call, when there is one, is the call for the previous
window. -/
theorem getActivities_stops_after_failure {σ ε : Type} (client : GQLClient σ ε) (d : Time)
    (fn : agoFn) (s : σ) (e : ε) (h : (client (queryVariables (fn d) d) s).1.2 = some e) :
    (getActivities (recording client) d fn ([], s)).2.1 = [queryVariables (fn d) d] ∧
      (getActivities (recording client) d fn ([], s)).2.1.length = 1 ∧
      (∀ (client2 : GQLClient σ ε) (s2 : σ),
        (getActivities (recording client2) d fn ([], s2)).2.1 = [queryVariables (fn d) d] ∨
        (getActivities (recording client2) d fn ([], s2)).2.1 =
          [queryVariables (fn d) d, queryVariables (fn (fn d)) (fn d)]) := by
  have hlog := getActivities_recording_log client d fn s
  rw [h] at hlog
  simp only [Option.isNone_some, Bool.false_eq_true, if_false] at hlog
  refine ⟨hlog, by rw [hlog]; rfl, ?_⟩
  intro client2 s2
  have h2 := getActivities_recording_log client2 d fn s2
  rw [h2]
  by_cases hc : (client2 (queryVariables (fn d) d) s2).1.2.isNone = true
  · right
    rw [if_pos hc]
  · left
    rw [if_neg hc]

/-- Witness of C19: a client that fails on its first call is called once. -/
theorem getActivities_stops_after_failure_witness :
    (getActivities (recording (fun (_ : QueryVars) (n : Nat) =>
        ((⟨0, 0, 0⟩, some "no network"), n + 1))) (timeDate 2024 3 15 0) weekAgo ([], 0)).2.1
      = [queryVariables (weekAgo (timeDate 2024 3 15 0)) (timeDate 2024 3 15 0)] :=
  (getActivities_stops_after_failure (fun (_ : QueryVars) (n : Nat) =>
    ((⟨0, 0, 0⟩, some "no network"), n + 1)) (timeDate 2024 3 15 0) weekAgo 0 "no network"
    rfl).1

/-! ## Steps of a month and of a year -/

theorem daysBeforeYear_succ (y : Int) :
    daysBeforeYear (y + 1) = daysBeforeYear y + 365 + (if isLeap y then 1 else 0) := by
  unfold daysBeforeYear isLeap
  have e : y + 1 - 1 = y := by ring
  rw [e]
  by_cases h4 : y % 4 = 0 <;> by_cases h100 : y % 100 = 0 <;> by_cases h400 : y % 400 = 0 <;>
    simp [h4, h100, h400] <;> omega

theorem month_length_fin : ∀ (leap : Bool) (m : Fin 11),
    28 ≤ daysBefore (((m : Nat) : Int) + 2) leap - daysBefore (((m : Nat) : Int) + 1) leap ∧
      daysBefore (((m : Nat) : Int) + 2) leap - daysBefore (((m : Nat) : Int) + 1) leap ≤ 31 := by
  decide!

theorem month_length_range (m : Int) (leap : Bool) (h1 : 2 ≤ m) (h2 : m ≤ 12) :
    28 ≤ daysBefore m leap - daysBefore (m - 1) leap ∧
      daysBefore m leap - daysBefore (m - 1) leap ≤ 31 := by
  have h := month_length_fin leap ⟨(m - 2).toNat, by omega⟩
  have e : (((m - 2).toNat : Nat) : Int) = m - 2 := Int.toNat_of_nonneg (by omega)
  simp only [e] at h
  have e1 : m - 2 + 2 = m := by ring
  have e2 : m - 2 + 1 = m - 1 := by ring
  rw [e1, e2] at h
  exact h

theorem daysBefore_leap_fin : ∀ (leap : Bool) (m : Fin 12),
    daysBefore (((m : Nat) : Int) + 1) leap =
      daysBefore (((m : Nat) : Int) + 1) false +
        (if leap = true ∧ 3 ≤ ((m : Nat) : Int) + 1 then 1 else 0) := by
  decide!

theorem daysBefore_leap (m : Int) (leap : Bool) (h1 : 1 ≤ m) (h2 : m ≤ 12) :
    daysBefore m leap = daysBefore m false + (if leap = true ∧ 3 ≤ m then 1 else 0) := by
  have h := daysBefore_leap_fin leap ⟨(m - 1).toNat, by omega⟩
  have e : (((m - 1).toNat : Nat) : Int) = m - 1 := Int.toNat_of_nonneg (by omega)
  simp only [e] at h
  have e1 : m - 1 + 1 = m := by ring
  rw [e1] at h
  exact h

theorem monthAgo_eq (t : Time) :
    ∃ k : Int, 28 ≤ k ∧ k ≤ 31 ∧ monthAgo t = ⟨t.day - k, t.nsec⟩ := by
  obtain ⟨hm1, hm2, hday⟩ := Date_spec t
  unfold monthAgo Time.AddDate
  simp only [add_zero]
  generalize t.Date.1 = y at *
  generalize t.Date.2.1 = m at *
  generalize t.Date.2.2 = d at *
  rcases eq_or_lt_of_le hm1 with h | h
  · -- January: the step goes to December of the year before
    subst h
    have hy := daysBeforeYear_succ (y - 1)
    have e : y - 1 + 1 = y := by ring
    rw [e] at hy
    have em : ((1 : Int) + -1 - 1) / 12 = -1 := by decide
    have em2 : ((1 : Int) + -1 - 1) % 12 + 1 = 12 := by decide
    have e12 := daysBefore_leap 12 (isLeap (y - 1)) (by norm_num) (by norm_num)
    have e12f : daysBefore 12 false = 334 := by decide
    have e1 : daysBefore 1 (isLeap y) = 0 := by
      cases isLeap y <;> decide
    refine ⟨31, by norm_num, by norm_num, ?_⟩
    unfold timeDate
    simp only [em, em2]
    have ey : y + -1 = y - 1 := by ring
    rw [ey, e12, e12f]
    rw [e1] at hday
    have hif : (if isLeap (y - 1) = true ∧ (3 : Int) ≤ 12 then (1 : Int) else 0) =
        (if isLeap (y - 1) = true then (1 : Int) else 0) := by
      simp
    rw [hif]
    congr 1
    generalize (if isLeap (y - 1) = true then (1 : Int) else 0) = a at *
    omega
  · have hr := month_length_range m (isLeap y) (by omega) hm2
    refine ⟨daysBefore m (isLeap y) - daysBefore (m - 1) (isLeap y), hr.1, hr.2, ?_⟩
    have e : m + -1 = m - 1 := by ring
    rw [e, timeDate_of_month_in_range _ _ _ _ (by omega) (by omega)]
    congr 1
    omega

theorem yearAgo_eq (t : Time) :
    ∃ k : Int, 365 ≤ k ∧ k ≤ 366 ∧ yearAgo t = ⟨t.day - k, t.nsec⟩ := by
  obtain ⟨hm1, hm2, hday⟩ := Date_spec t
  unfold yearAgo Time.AddDate
  simp only [add_zero]
  generalize t.Date.1 = y at *
  generalize t.Date.2.1 = m at *
  generalize t.Date.2.2 = d at *
  have hy := daysBeforeYear_succ (y - 1)
  have e : y - 1 + 1 = y := by ring
  rw [e] at hy
  have ey : y + -1 = y - 1 := by ring
  rw [ey, timeDate_of_month_in_range _ _ _ _ hm1 hm2]
  have l1 := daysBefore_leap m (isLeap y) hm1 hm2
  have l2 := daysBefore_leap m (isLeap (y - 1)) hm1 hm2
  have hb1 : (0 : Int) ≤ (if isLeap (y - 1) = true then 1 else 0) ∧
      (if isLeap (y - 1) = true then (1 : Int) else 0) ≤ 1 := by
    split <;> norm_num
  have hb2 : (0 : Int) ≤ (if isLeap y = true ∧ 3 ≤ m then 1 else 0) ∧
      (if isLeap y = true ∧ 3 ≤ m then (1 : Int) else 0) ≤ 1 := by
    split <;> norm_num
  have hb3 : (if isLeap (y - 1) = true ∧ 3 ≤ m then (1 : Int) else 0) ≤
      (if isLeap (y - 1) = true then (1 : Int) else 0) ∧
      (0 : Int) ≤ (if isLeap (y - 1) = true ∧ 3 ≤ m then (1 : Int) else 0) := by
    by_cases h : isLeap (y - 1) = true <;> by_cases h3 : 3 ≤ m <;> simp [h, h3]
  have hexcl : (if isLeap (y - 1) = true then (1 : Int) else 0) = 1 →
      (if isLeap y = true ∧ 3 ≤ m then (1 : Int) else 0) = 0 := by
    intro h1
    have hl : isLeap (y - 1) = true := by
      by_contra hc
      simp [hc] at h1
    have hn : isLeap y = false := by
      unfold isLeap at hl ⊢
      simp only [decide_eq_true_eq, decide_eq_false_iff_not] at hl ⊢
      omega
    simp [hn]
  refine ⟨daysBeforeYear y + daysBefore m (isLeap y) -
      (daysBeforeYear (y - 1) + daysBefore m (isLeap (y - 1))), ?_, ?_, ?_⟩
  · rw [l1, l2, hy]
    generalize (if isLeap (y - 1) = true then (1 : Int) else 0) = a at *
    generalize (if isLeap y = true ∧ 3 ≤ m then (1 : Int) else 0) = b at *
    generalize (if isLeap (y - 1) = true ∧ 3 ≤ m then (1 : Int) else 0) = c at *
    omega
  · rw [l1, l2, hy]
    generalize (if isLeap (y - 1) = true then (1 : Int) else 0) = a at *
    generalize (if isLeap y = true ∧ 3 ≤ m then (1 : Int) else 0) = b at *
    generalize (if isLeap (y - 1) = true ∧ 3 ≤ m then (1 : Int) else 0) = c at *
    omega
  · congr 1
    omega

theorem step_back (fn : agoFn) (hfn : fn = weekAgo ∨ fn = monthAgo ∨ fn = yearAgo) (t : Time) :
    (fn t).day < t.day ∧ (fn t).nsec = t.nsec := by
  rcases hfn with rfl | rfl | rfl
  · rw [weekAgo_eq]
    exact ⟨by simp only; omega, rfl⟩
  · obtain ⟨k, h1, _, h3⟩ := monthAgo_eq t
    rw [h3]
    exact ⟨by simp only; omega, rfl⟩
  · obtain ⟨k, h1, _, h3⟩ := yearAgo_eq t
    rw [h3]
    exact ⟨by simp only; omega, rfl⟩

/-! ## Claims about the windows -/

theorem step_lengths (now : Time) :
    (now.day - (weekAgo now).day = 7 ∧
        (weekAgo now).day - (weekAgo (weekAgo now)).day = 7) ∧
      (28 ≤ now.day - (monthAgo now).day ∧ now.day - (monthAgo now).day ≤ 31 ∧
        28 ≤ (monthAgo now).day - (monthAgo (monthAgo now)).day ∧
        (monthAgo now).day - (monthAgo (monthAgo now)).day ≤ 31) ∧
      (365 ≤ now.day - (yearAgo now).day ∧ now.day - (yearAgo now).day ≤ 366 ∧
        365 ≤ (yearAgo now).day - (yearAgo (yearAgo now)).day ∧
        (yearAgo now).day - (yearAgo (yearAgo now)).day ≤ 366) ∧
      ((weekAgo now).nsec = now.nsec ∧ (monthAgo now).nsec = now.nsec ∧
        (yearAgo now).nsec = now.nsec) := by
  refine ⟨?_, ?_, ?_, ?_⟩
  · rw [weekAgo_eq (weekAgo now), weekAgo_eq now]
    simp only
    omega
  · obtain ⟨k1, a1, b1, c1⟩ := monthAgo_eq now
    obtain ⟨k2, a2, b2, c2⟩ := monthAgo_eq (monthAgo now)
    rw [c2, c1]
    simp only
    omega
  · obtain ⟨k1, a1, b1, c1⟩ := yearAgo_eq now
    obtain ⟨k2, a2, b2, c2⟩ := yearAgo_eq (yearAgo now)
    rw [c2, c1]
    simp only
    omega
  · exact ⟨(step_back weekAgo (Or.inl rfl) now).2, (step_back monthAgo (Or.inr (Or.inl rfl)) now).2,
      (step_back yearAgo (Or.inr (Or.inr rfl)) now).2⟩

/-- Counterexample to C14 as stated: on 2024-03-15 with the month step the
current window, from 2024-02-15, is 29 days long and the previous window, from
2024-01-15, is 31 days long. -/
theorem month_windows_differ_in_length :
    dateToStr (timeDate 2024 3 15 0) = "2024-03-15" ∧
      dateToStr (monthAgo (timeDate 2024 3 15 0)) = "2024-02-15" ∧
      dateToStr (monthAgo (monthAgo (timeDate 2024 3 15 0))) = "2024-01-15" ∧
      (timeDate 2024 3 15 0).day - (monthAgo (timeDate 2024 3 15 0)).day = 29 ∧
      (monthAgo (timeDate 2024 3 15 0)).day
        - (monthAgo (monthAgo (timeDate 2024 3 15 0))).day = 31 := by
  refine ⟨by decide, by decide, by decide, by decide, by decide⟩

/-- C15 (amended): for every `now` and every unit the two inclusive date ranges
sent to the search share exactly one calendar date, the day of `fn(now)`, which
ends the range of the previous window and starts the range of the current one;
no other date is covered by both. -/
theorem windows_share_boundary_day (now : Time) (fn : agoFn)
    (hfn : fn = weekAgo ∨ fn = monthAgo ∨ fn = yearAgo) (day : Int) :
    (coversDay (fn now) now day ∧ coversDay (fn (fn now)) (fn now) day) ↔
      day = (fn now).day := by
  have h1 := (step_back fn hfn now).1
  have h2 := (step_back fn hfn (fn now)).1
  unfold coversDay
  constructor
  · rintro ⟨⟨a, _⟩, ⟨_, b⟩⟩
    omega
  · rintro rfl
    exact ⟨⟨le_refl _, by omega⟩, ⟨by omega, le_refl _⟩⟩

/-- Witness of C15 on 2024-03-15 with the week step: the shared date is
2024-03-08. -/
theorem windows_share_boundary_day_witness :
    (coversDay (weekAgo (timeDate 2024 3 15 0)) (timeDate 2024 3 15 0) 19790 ∧
      coversDay (weekAgo (weekAgo (timeDate 2024 3 15 0))) (weekAgo (timeDate 2024 3 15 0))
        19790) ↔ 19790 = (weekAgo (timeDate 2024 3 15 0)).day :=
  windows_share_boundary_day (timeDate 2024 3 15 0) weekAgo (Or.inl rfl) 19790

/-- Counterexample to C15 as stated: on 2024-03-15 with the week step the date
2024-03-08 lies in the range of the current window, `2024-03-08..2024-03-15`, and
in the range of the previous window, `2024-03-01..2024-03-08`. -/
theorem windows_overlap_on_boundary_day :
    (queryVariables (weekAgo (timeDate 2024 3 15 0)) (timeDate 2024 3 15 0)).queryForOpenIssue
        = "author:@me is:issue created:2024-03-08..2024-03-15" ∧
      (queryVariables (weekAgo (weekAgo (timeDate 2024 3 15 0)))
          (weekAgo (timeDate 2024 3 15 0))).queryForOpenIssue
        = "author:@me is:issue created:2024-03-01..2024-03-08" ∧
      coversDay (weekAgo (timeDate 2024 3 15 0)) (timeDate 2024 3 15 0)
        (timeDate 2024 3 8 0).day ∧
      coversDay (weekAgo (weekAgo (timeDate 2024 3 15 0))) (weekAgo (timeDate 2024 3 15 0))
        (timeDate 2024 3 8 0).day := by
  refine ⟨by decide, by decide, by decide, by decide⟩

/-- C16: for every `now` and every step among `weekAgo`, `monthAgo` and `yearAgo`
both windows start before they end: `fn(now)` is before `now` and `fn(fn(now))`
is before `fn(now)`, also at month ends and on 29 February, where the date is
normalised. -/
theorem windows_start_before_end (now : Time) (fn : agoFn)
    (hfn : fn = weekAgo ∨ fn = monthAgo ∨ fn = yearAgo) :
    (fn now).Before now ∧ (fn (fn now)).Before (fn now) :=
  ⟨Or.inl (step_back fn hfn now).1, Or.inl (step_back fn hfn (fn now)).1⟩

/-- Witness of C16 on 2024-03-31 with the month step. -/
theorem windows_start_before_end_witness :
    (monthAgo (timeDate 2024 3 31 0)).Before (timeDate 2024 3 31 0) ∧
      (monthAgo (monthAgo (timeDate 2024 3 31 0))).Before (monthAgo (timeDate 2024 3 31 0)) :=
  windows_start_before_end (timeDate 2024 3 31 0) monthAgo (Or.inr (Or.inl rfl))

/-! ## `Time.Date` inverts `time.Date` on the dates of the calendar -/

theorem daysBeforeYear_mono (y y2 : Int) (h : y ≤ y2) : daysBeforeYear y ≤ daysBeforeYear y2 := by
  unfold daysBeforeYear
  omega

theorem sub_add_one_sub_one_add (a b : Int) : a - b + 1 - 1 + b = a := by ring

theorem Date_yday_parts (t : Time) :
    0 ≤ t.Date.2.2 - 1 + daysBefore t.Date.2.1 (isLeap t.Date.1) ∧
      t.Date.2.2 - 1 + daysBefore t.Date.2.1 (isLeap t.Date.1) ≤ 365 ∧
      (t.Date.2.2 - 1 + daysBefore t.Date.2.1 (isLeap t.Date.1) = 365 →
        isLeap t.Date.1 = true) ∧
      t.Date.2.1 =
        monthOfYday (t.Date.2.2 - 1 + daysBefore t.Date.2.1 (isLeap t.Date.1)) (isLeap t.Date.1) := by
  unfold Time.Date
  simp only [sub_add_one_sub_one_add]
  refine ⟨?_, ?_, ?_, trivial⟩
  all_goals (
    generalize t.day + 719162 = z
    have hdoe0 : 0 ≤ z % 146097 := by omega
    have hdoe1 : z % 146097 < 146097 := by omega
    generalize z % 146097 = doe at *
    generalize z / 146097 = era at *
    have hc0 : 0 ≤ min (doe / 36524) 3 := le_min (by omega) (by norm_num)
    have hc3 : min (doe / 36524) 3 ≤ 3 := min_le_right _ _
    have hr1 : 0 ≤ doe - min (doe / 36524) 3 * 36524 ∧
        doe - min (doe / 36524) 3 * 36524 ≤ 36524 ∧
        (min (doe / 36524) 3 < 3 → doe - min (doe / 36524) 3 * 36524 < 36524) := by
      rcases min_choice (doe / 36524) 3 with h | h <;> rw [h] <;> omega
    generalize min (doe / 36524) 3 = c at *
    generalize doe - c * 36524 = r1 at *
    have hq0 : 0 ≤ r1 / 1461 := by omega
    have hq24 : r1 / 1461 ≤ 24 := by omega
    have hr2 : r1 = (r1 / 1461) * 1461 + r1 % 1461 := by omega
    have hr20 : 0 ≤ r1 % 1461 := by omega
    have hr21 : r1 % 1461 < 1461 := by omega
    generalize r1 / 1461 = q at *
    generalize r1 % 1461 = r2 at *
    have hy0 : 0 ≤ min (r2 / 365) 3 := le_min (by omega) (by norm_num)
    have hy3 : min (r2 / 365) 3 ≤ 3 := min_le_right _ _
    have hyd : 0 ≤ r2 - min (r2 / 365) 3 * 365 ∧ r2 - min (r2 / 365) 3 * 365 ≤ 365 ∧
        (r2 - min (r2 / 365) 3 * 365 = 365 → min (r2 / 365) 3 = 3 ∧ r2 = 1460) := by
      rcases min_choice (r2 / 365) 3 with h | h <;> rw [h] <;> omega
    generalize min (r2 / 365) 3 = y1 at *)
  · exact hyd.1
  · exact hyd.2.1
  · intro h365
    obtain ⟨hy13, hr2v⟩ := hyd.2.2 h365
    unfold isLeap
    simp only [decide_eq_true_eq]
    omega

theorem Date_yday (t : Time) :
    ∃ yday : Int, 0 ≤ yday ∧ yday ≤ 365 ∧ (yday = 365 → isLeap t.Date.1 = true) ∧
      t.Date.2.1 = monthOfYday yday (isLeap t.Date.1) ∧
      t.Date.2.2 = yday - daysBefore t.Date.2.1 (isLeap t.Date.1) + 1 ∧
      daysBeforeYear t.Date.1 + yday - 719162 = t.day := by
  obtain ⟨h0, h1, h2, h3⟩ := Date_yday_parts t
  obtain ⟨_, _, hday⟩ := Date_spec t
  exact ⟨_, h0, h1, h2, h3, by ring, by omega⟩

theorem Date_yday_leap (t : Time) :
    ∃ yday : Int, 0 ≤ yday ∧ yday ≤ 364 + (if isLeap t.Date.1 = true then 1 else 0) ∧
      t.Date.2.1 = monthOfYday yday (isLeap t.Date.1) ∧
      t.Date.2.2 = yday - daysBefore t.Date.2.1 (isLeap t.Date.1) + 1 ∧
      daysBeforeYear t.Date.1 + yday - 719162 = t.day := by
  obtain ⟨yday, h0, h1, h2, h3, h4, h5⟩ := Date_yday t
  refine ⟨yday, h0, ?_, h3, h4, h5⟩
  by_cases hl : isLeap t.Date.1 = true
  · rw [if_pos hl]
    omega
  · rw [if_neg hl]
    have : yday ≠ 365 := fun h => hl (h2 h)
    omega

theorem valid_yday_fin : ∀ (leap : Bool) (m : Fin 12) (d : Fin 31),
    ((d : Nat) : Int) + 1 ≤ daysIn (((m : Nat) : Int) + 1) leap →
      daysBefore (((m : Nat) : Int) + 1) leap + (((d : Nat) : Int) + 1) - 1 ≤
          364 + (if leap = true then 1 else 0) ∧
        0 ≤ daysBefore (((m : Nat) : Int) + 1) leap + (((d : Nat) : Int) + 1) - 1 ∧
        monthOfYday (daysBefore (((m : Nat) : Int) + 1) leap + (((d : Nat) : Int) + 1) - 1) leap
          = ((m : Nat) : Int) + 1 := by
  decide!

theorem daysIn_le (m : Int) (leap : Bool) : daysIn m leap ≤ 31 := by
  unfold daysIn
  split_ifs <;> norm_num

theorem valid_yday (m d : Int) (leap : Bool) (hm1 : 1 ≤ m) (hm2 : m ≤ 12) (hd1 : 1 ≤ d)
    (hd2 : d ≤ daysIn m leap) :
    daysBefore m leap + d - 1 ≤ 364 + (if leap = true then 1 else 0) ∧
      0 ≤ daysBefore m leap + d - 1 ∧ monthOfYday (daysBefore m leap + d - 1) leap = m := by
  have hd31 := daysIn_le m leap
  have h := valid_yday_fin leap ⟨(m - 1).toNat, by omega⟩ ⟨(d - 1).toNat, by omega⟩
  have em : (((m - 1).toNat : Nat) : Int) = m - 1 := Int.toNat_of_nonneg (by omega)
  have ed : (((d - 1).toNat : Nat) : Int) = d - 1 := Int.toNat_of_nonneg (by omega)
  simp only [em, ed] at h
  have e1 : m - 1 + 1 = m := by ring
  have e2 : d - 1 + 1 = d := by ring
  rw [e1, e2] at h
  exact h hd2

theorem year_unique (y y2 yd yd2 : Int) (h0 : 0 ≤ yd) (h1 : yd ≤ 364 + (if isLeap y = true then 1 else 0))
    (h02 : 0 ≤ yd2) (h12 : yd2 ≤ 364 + (if isLeap y2 = true then 1 else 0))
    (h : daysBeforeYear y + yd = daysBeforeYear y2 + yd2) : y = y2 := by
  rcases lt_trichotomy y y2 with hlt | heq | hgt
  · exfalso
    have hm := daysBeforeYear_mono (y + 1) y2 (by omega)
    have hs := daysBeforeYear_succ y
    generalize (if isLeap y = true then (1 : Int) else 0) = a at *
    generalize (if isLeap y2 = true then (1 : Int) else 0) = b at *
    omega
  · exact heq
  · exfalso
    have hm := daysBeforeYear_mono (y2 + 1) y (by omega)
    have hs := daysBeforeYear_succ y2
    generalize (if isLeap y = true then (1 : Int) else 0) = a at *
    generalize (if isLeap y2 = true then (1 : Int) else 0) = b at *
    omega

theorem Date_timeDate (y m d : Int) (nsec : Nat) (hm1 : 1 ≤ m) (hm2 : m ≤ 12) (hd1 : 1 ≤ d)
    (hd2 : d ≤ daysIn m (isLeap y)) : (timeDate y m d nsec).Date = (y, m, d) := by
  obtain ⟨v1, v2, v3⟩ := valid_yday m d (isLeap y) hm1 hm2 hd1 hd2
  have ht := timeDate_of_month_in_range y m d nsec hm1 hm2
  obtain ⟨yday, a0, a1, am, ad, aday⟩ := Date_yday_leap (timeDate y m d nsec)
  have hday : (timeDate y m d nsec).day =
      daysBeforeYear y + daysBefore m (isLeap y) + (d - 1) - 719162 := by rw [ht]
  have hy : (timeDate y m d nsec).Date.1 = y := by
    apply year_unique _ _ yday (daysBefore m (isLeap y) + d - 1) a0 a1 v2 v1
    omega
  rw [hy] at aday am ad
  have hyd : yday = daysBefore m (isLeap y) + d - 1 := by omega
  rw [hyd, v3] at am
  rw [am, hyd] at ad
  have hd : (timeDate y m d nsec).Date.2.2 = d := by omega
  exact Prod.ext hy (Prod.ext am hd)

/-- C17 (amended): for every year `y`, `monthAgo` applied to a timestamp on
`y-03-31` yields the timestamp with the same time of day on `y-03-03`, or on
`y-03-02` in a leap year: the day 31 of February, counted on from the first of
February as the date library normalises it, not the last day of February. -/
theorem monthAgo_march_31 (y : Int) (nsec : Nat) :
    (timeDate y 3 31 nsec).Date = (y, 3, 31) ∧
      monthAgo (timeDate y 3 31 nsec) = timeDate y 3 (if isLeap y = true then 2 else 3) nsec ∧
      (monthAgo (timeDate y 3 31 nsec)).Date = (y, 3, if isLeap y = true then 2 else 3) ∧
      (monthAgo (timeDate y 3 31 nsec)).nsec = nsec ∧
      (monthAgo (timeDate y 3 31 nsec)).Date ≠ (y, 2, if isLeap y = true then 29 else 28) := by
  have h31 : (timeDate y 3 31 nsec).Date = (y, 3, 31) :=
    Date_timeDate y 3 31 nsec (by norm_num) (by norm_num) (by norm_num) (by
      unfold daysIn
      norm_num)
  have hstep : monthAgo (timeDate y 3 31 nsec) =
      timeDate y 3 (if isLeap y = true then 2 else 3) nsec := by
    have e0 : monthAgo (timeDate y 3 31 nsec) =
        timeDate ((timeDate y 3 31 nsec).Date.1 + 0) ((timeDate y 3 31 nsec).Date.2.1 + -1)
          ((timeDate y 3 31 nsec).Date.2.2 + 0) nsec := rfl
    rw [e0, h31]
    have e1 : ((y, (3 : Int), (31 : Int)) : Int × Int × Int).1 + 0 = y := by simp
    have e2 : ((y, (3 : Int), (31 : Int)) : Int × Int × Int).2.1 + -1 = 2 := by norm_num
    have e3 : ((y, (3 : Int), (31 : Int)) : Int × Int × Int).2.2 + 0 = 31 := by norm_num
    rw [e1, e2, e3]
    rw [timeDate_of_month_in_range y 2 31 nsec (by norm_num) (by norm_num),
      timeDate_of_month_in_range y 3 _ nsec (by norm_num) (by norm_num)]
    have d2 : daysBefore 2 (isLeap y) = 31 := by
      cases isLeap y <;> decide
    have d3 : daysBefore 3 (isLeap y) = 59 + (if isLeap y = true then 1 else 0) := by
      cases isLeap y <;> decide
    rw [d2, d3]
    congr 1
    split_ifs <;> omega
  have hdate : (timeDate y 3 (if isLeap y = true then 2 else 3) nsec).Date =
      (y, 3, if isLeap y = true then 2 else 3) :=
    Date_timeDate y 3 _ nsec (by norm_num) (by norm_num) (by split_ifs <;> norm_num) (by
      unfold daysIn
      split_ifs <;> norm_num)
  refine ⟨h31, hstep, by rw [hstep, hdate], by rw [hstep]; rfl, ?_⟩
  rw [hstep, hdate]
  intro hc
  simp only [Prod.mk.injEq] at hc
  omega

/-- Counterexample to C17 as stated: `monthAgo` takes 2023-03-31 to 2023-03-03,
not to 2023-02-28, and 2024-03-31 to 2024-03-02, not to 2024-02-29. -/
theorem monthAgo_march_31_not_in_february :
    dateToStr (timeDate 2023 3 31 0) = "2023-03-31" ∧
      dateToStr (monthAgo (timeDate 2023 3 31 0)) = "2023-03-03" ∧
      (monthAgo (timeDate 2023 3 31 0)).Date = (2023, 3, 3) ∧
      dateToStr (monthAgo (timeDate 2024 3 31 0)) = "2024-03-02" ∧
      (monthAgo (timeDate 2024 3 31 0)).Date = (2024, 3, 2) := by
  refine ⟨by decide, by decide, by decide, by decide, by decide⟩

/-! ## Error bounds for `ratio` -/

theorem f64Round_between (x : ℚ) (hx : 0 ≤ x) :
    x * (9999 / 10000) ≤ f64Round x ∧ f64Round x ≤ x * (10001 / 10000) := by
  have h := f64Round_rel_err x
  rw [abs_of_nonneg hx] at h
  have h1 := abs_le.mp h
  have h2 : x / 2 ^ 53 ≤ x / 10000 := by
    apply div_le_div_of_nonneg_left hx (by norm_num) (by norm_num)
  constructor <;> linarith [h1.1, h1.2]

theorem sumF64_three_between (a b c : ℤ) (ha : 0 ≤ a) (hb : 0 ≤ b) (hc : 0 ≤ c) :
    ((a + b + c : ℤ) : ℚ) * (9999 / 10000) ^ 4 ≤ sumF64 [a, b, c] ∧
      sumF64 [a, b, c] ≤ ((a + b + c : ℤ) : ℚ) * (10001 / 10000) ^ 4 := by
  have haq : (0 : ℚ) ≤ a := by exact_mod_cast ha
  have hbq : (0 : ℚ) ≤ b := by exact_mod_cast hb
  have hcq : (0 : ℚ) ≤ c := by exact_mod_cast hc
  unfold sumF64
  simp only [List.foldl_cons, List.foldl_nil]
  unfold f64Add f64OfInt
  obtain ⟨fa1, fa2⟩ := f64Round_between (a : ℚ) haq
  obtain ⟨fb1, fb2⟩ := f64Round_between (b : ℚ) hbq
  obtain ⟨fc1, fc2⟩ := f64Round_between (c : ℚ) hcq
  have fa0 := f64Round_nonneg (a : ℚ) haq
  have fb0 := f64Round_nonneg (b : ℚ) hbq
  have fc0 := f64Round_nonneg (c : ℚ) hcq
  set fa := f64Round (a : ℚ)
  set fb := f64Round (b : ℚ)
  set fc := f64Round (c : ℚ)
  obtain ⟨s11, s12⟩ := f64Round_between (0 + fa) (by linarith)
  have s10 := f64Round_nonneg (0 + fa) (by linarith)
  set s1 := f64Round (0 + fa)
  obtain ⟨s21, s22⟩ := f64Round_between (s1 + fb) (by linarith)
  have s20 := f64Round_nonneg (s1 + fb) (by linarith)
  set s2 := f64Round (s1 + fb)
  obtain ⟨s31, s32⟩ := f64Round_between (s2 + fc) (by linarith)
  push_cast
  constructor
  · nlinarith
  · nlinarith

theorem quotient_near (n T : ℤ) (S : ℚ) (hn : 0 ≤ n) (hnT : n ≤ T) (hT : 0 < T)
    (hS1 : (T : ℚ) * (9999 / 10000) ^ 4 ≤ S) (hS2 : S ≤ (T : ℚ) * (10001 / 10000) ^ 4) :
    0 ≤ f64Div (f64Mul 100 (f64OfInt n)) S ∧
      f64Div (f64Mul 100 (f64OfInt n)) S ≤ 100 * (n : ℚ) / (T : ℚ) + 1 / 10 ∧
      100 * (n : ℚ) / (T : ℚ) - 1 / 10 ≤ f64Div (f64Mul 100 (f64OfInt n)) S := by
  have hnq : (0 : ℚ) ≤ n := by exact_mod_cast hn
  have hTq : (0 : ℚ) < T := by exact_mod_cast hT
  have hnTq : (n : ℚ) ≤ T := by exact_mod_cast hnT
  have hS0 : 0 < S := by
    have : (0 : ℚ) < (T : ℚ) * (9999 / 10000) ^ 4 := by positivity
    linarith
  unfold f64Div f64Mul f64OfInt
  obtain ⟨f1, f2⟩ := f64Round_between (n : ℚ) hnq
  have f0 := f64Round_nonneg (n : ℚ) hnq
  set f := f64Round (n : ℚ)
  obtain ⟨a1, a2⟩ := f64Round_between (100 * f) (by linarith)
  have a0 := f64Round_nonneg (100 * f) (by linarith)
  set a := f64Round (100 * f)
  have hq0 : 0 ≤ a / S := div_nonneg a0 hS0.le
  obtain ⟨q1, q2⟩ := f64Round_between (a / S) hq0
  have q0 := f64Round_nonneg (a / S) hq0
  set q := f64Round (a / S)
  set x : ℚ := 100 * (n : ℚ) / (T : ℚ) with hx
  have hx0 : 0 ≤ x := by positivity
  have hx100 : x ≤ 100 := by
    rw [hx, div_le_iff₀ hTq]
    linarith
  have hxT : x * T = 100 * n := by
    rw [hx]
    field_simp
  -- the quotient of the rounded operands against the exact quotient
  have hup : a / S ≤ x * ((10001 / 10000) ^ 2 / (9999 / 10000) ^ 4) := by
    rw [div_le_iff₀ hS0]
    have h1 : x * (T * (9999 / 10000) ^ 4) ≤ x * S := mul_le_mul_of_nonneg_left hS1 hx0
    have h2 : x * ((10001 / 10000) ^ 2 / (9999 / 10000) ^ 4) * S =
        (x * S) * ((10001 / 10000) ^ 2 / (9999 / 10000) ^ 4) := by ring
    have h3 : (x * (T * (9999 / 10000) ^ 4)) * ((10001 / 10000) ^ 2 / (9999 / 10000) ^ 4) =
        (x * T) * (10001 / 10000) ^ 2 := by
      field_simp
      ring
    have h4 : (x * (T * (9999 / 10000) ^ 4)) * ((10001 / 10000) ^ 2 / (9999 / 10000) ^ 4) ≤
        (x * S) * ((10001 / 10000) ^ 2 / (9999 / 10000) ^ 4) :=
      mul_le_mul_of_nonneg_right h1 (by positivity)
    rw [h2]
    rw [h3, hxT] at h4
    nlinarith
  have hdn : x * ((9999 / 10000) ^ 2 / (10001 / 10000) ^ 4) ≤ a / S := by
    rw [le_div_iff₀ hS0]
    have h1 : x * S ≤ x * (T * (10001 / 10000) ^ 4) := mul_le_mul_of_nonneg_left hS2 hx0
    have h2 : x * ((9999 / 10000) ^ 2 / (10001 / 10000) ^ 4) * S =
        (x * S) * ((9999 / 10000) ^ 2 / (10001 / 10000) ^ 4) := by ring
    have h3 : (x * (T * (10001 / 10000) ^ 4)) * ((9999 / 10000) ^ 2 / (10001 / 10000) ^ 4) =
        (x * T) * (9999 / 10000) ^ 2 := by
      field_simp
      ring
    have h4 : (x * S) * ((9999 / 10000) ^ 2 / (10001 / 10000) ^ 4) ≤
        (x * (T * (10001 / 10000) ^ 4)) * ((9999 / 10000) ^ 2 / (10001 / 10000) ^ 4) :=
      mul_le_mul_of_nonneg_right h1 (by positivity)
    rw [h2]
    rw [h3, hxT] at h4
    nlinarith
  refine ⟨q0, ?_, ?_⟩
  · have h5 : q ≤ x * (((10001 / 10000) ^ 2 / (9999 / 10000) ^ 4) * (10001 / 10000)) := by
      have := mul_le_mul_of_nonneg_right hup (by norm_num : (0 : ℚ) ≤ 10001 / 10000)
      linarith
    have hc : ((10001 / 10000 : ℚ) ^ 2 / (9999 / 10000) ^ 4) * (10001 / 10000) ≤ 1 + 1 / 1000 := by
      norm_num
    generalize ((10001 / 10000 : ℚ) ^ 2 / (9999 / 10000) ^ 4) * (10001 / 10000) = cu at h5 hc
    have h6 : x * cu ≤ x * (1 + 1 / 1000) := mul_le_mul_of_nonneg_left hc hx0
    linarith
  · have h5 : x * (((9999 / 10000) ^ 2 / (10001 / 10000) ^ 4) * (9999 / 10000)) ≤ q := by
      have := mul_le_mul_of_nonneg_right hdn (by norm_num : (0 : ℚ) ≤ 9999 / 10000)
      linarith
    have hc : 1 - 1 / 1000 ≤ ((9999 / 10000 : ℚ) ^ 2 / (10001 / 10000) ^ 4) * (9999 / 10000) := by
      norm_num
    generalize ((9999 / 10000 : ℚ) ^ 2 / (10001 / 10000) ^ 4) * (9999 / 10000) = cd at h5 hc
    have h6 : x * (1 - 1 / 1000) ≤ x * cd := mul_le_mul_of_nonneg_left hc hx0
    linarith

theorem ratio_of_exact (nums : List Int) (hnn : ∀ n ∈ nums, 0 ≤ n) (hne : nums.sum ≠ 0)
    (hb : 100 * nums.sum ≤ 2 ^ 53) :
    ratio nums =
      nums.map (fun (n : Int) => roundHalfAway (f64Round (100 * (n : ℚ) / (nums.sum : ℚ)))) := by
  have hs0 : 0 ≤ nums.sum := List.sum_nonneg hnn
  have hsum : sumF64 nums = (nums.sum : ℚ) := sumF64_exact nums hnn (by omega)
  have hTq : (nums.sum : ℚ) ≠ 0 := by exact_mod_cast hne
  unfold ratio
  simp only
  rw [hsum, if_neg hTq]
  apply List.map_congr_left
  intro n hn
  have hn0 : 0 ≤ n := hnn n hn
  have hnT : n ≤ nums.sum := List.single_le_sum hnn n hn
  rw [intOfF64_mathRound, f64OfInt_exact n (by rw [abs_of_nonneg hn0]; omega)]
  have h100 : f64Mul 100 (n : ℚ) = 100 * (n : ℚ) := by
    unfold f64Mul
    rw [show (100 : ℚ) * (n : ℚ) = ((100 * n : ℤ) : ℚ) by push_cast; ring]
    exact f64Round_of_rep _ (F64Rep_int _ (by rw [abs_of_nonneg (by omega)]; omega))
  rw [h100]
  rfl

/-! ## Claims about the sum and the scale of the ratios -/

/-- C18: for every triple of non-negative ints with a non-zero total the sum of
the three ratios `ratio` returns is 99, 100 or 101. -/
theorem ratio_sum_near_100 (i p r : Int) (hi : 0 ≤ i) (hp : 0 ≤ p) (hr : 0 ≤ r)
    (hne : i + p + r ≠ 0) :
    (ratio [i, p, r]).sum = 99 ∨ (ratio [i, p, r]).sum = 100 ∨ (ratio [i, p, r]).sum = 101 := by
  have hT : 0 < i + p + r := by omega
  have hTq : (0 : ℚ) < ((i + p + r : ℤ) : ℚ) := by exact_mod_cast hT
  obtain ⟨hS1, hS2⟩ := sumF64_three_between i p r hi hp hr
  have hS0 : sumF64 [i, p, r] ≠ 0 := by
    have : (0 : ℚ) < ((i + p + r : ℤ) : ℚ) * (9999 / 10000) ^ 4 := by positivity
    linarith
  obtain ⟨a0, a1, a2⟩ := quotient_near i (i + p + r) (sumF64 [i, p, r]) hi (by omega) hT hS1 hS2
  obtain ⟨b0, b1, b2⟩ := quotient_near p (i + p + r) (sumF64 [i, p, r]) hp (by omega) hT hS1 hS2
  obtain ⟨c0, c1, c2⟩ := quotient_near r (i + p + r) (sumF64 [i, p, r]) hr (by omega) hT hS1 hS2
  unfold ratio
  simp only
  rw [if_neg hS0]
  simp only [List.map_cons, List.map_nil, List.sum_cons, List.sum_nil, add_zero,
    intOfF64_mathRound]
  generalize f64Div (f64Mul 100 (f64OfInt i)) (sumF64 [i, p, r]) = qa at *
  generalize f64Div (f64Mul 100 (f64OfInt p)) (sumF64 [i, p, r]) = qb at *
  generalize f64Div (f64Mul 100 (f64OfInt r)) (sumF64 [i, p, r]) = qc at *
  unfold roundHalfAway
  rw [if_pos a0, if_pos b0, if_pos c0]
  have fa1 : ((⌊qa + 1 / 2⌋ : ℤ) : ℚ) ≤ qa + 1 / 2 := Int.floor_le _
  have fa2 : qa + 1 / 2 < ((⌊qa + 1 / 2⌋ : ℤ) : ℚ) + 1 := Int.lt_floor_add_one _
  have fb1 : ((⌊qb + 1 / 2⌋ : ℤ) : ℚ) ≤ qb + 1 / 2 := Int.floor_le _
  have fb2 : qb + 1 / 2 < ((⌊qb + 1 / 2⌋ : ℤ) : ℚ) + 1 := Int.lt_floor_add_one _
  have fc1 : ((⌊qc + 1 / 2⌋ : ℤ) : ℚ) ≤ qc + 1 / 2 := Int.floor_le _
  have fc2 : qc + 1 / 2 < ((⌊qc + 1 / 2⌋ : ℤ) : ℚ) + 1 := Int.lt_floor_add_one _
  have hx : 100 * (i : ℚ) / ((i + p + r : ℤ) : ℚ) + 100 * (p : ℚ) / ((i + p + r : ℤ) : ℚ)
      + 100 * (r : ℚ) / ((i + p + r : ℤ) : ℚ) = 100 := by
    rw [← add_div, ← add_div, div_eq_iff (ne_of_gt hTq)]
    push_cast
    ring
  generalize 100 * (i : ℚ) / ((i + p + r : ℤ) : ℚ) = xa at *
  generalize 100 * (p : ℚ) / ((i + p + r : ℤ) : ℚ) = xb at *
  generalize 100 * (r : ℚ) / ((i + p + r : ℤ) : ℚ) = xc at *
  have hlo : (98 : ℚ) < ((⌊qa + 1 / 2⌋ + (⌊qb + 1 / 2⌋ + ⌊qc + 1 / 2⌋) : ℤ) : ℚ) := by
    push_cast
    linarith
  have hhi : ((⌊qa + 1 / 2⌋ + (⌊qb + 1 / 2⌋ + ⌊qc + 1 / 2⌋) : ℤ) : ℚ) < 102 := by
    push_cast
    linarith
  have hlo2 : (98 : ℤ) < ⌊qa + 1 / 2⌋ + (⌊qb + 1 / 2⌋ + ⌊qc + 1 / 2⌋) := by exact_mod_cast hlo
  have hhi2 : ⌊qa + 1 / 2⌋ + (⌊qb + 1 / 2⌋ + ⌊qc + 1 / 2⌋) < (102 : ℤ) := by exact_mod_cast hhi
  omega

/-- Witness of C18 at the counts `(6, 5, 10)`, whose ratios sum to 101. -/
theorem ratio_sum_near_100_witness :
    (ratio [6, 5, 10]).sum = 99 ∨ (ratio [6, 5, 10]).sum = 100 ∨ (ratio [6, 5, 10]).sum = 101 :=
  ratio_sum_near_100 6 5 10 (by decide) (by decide) (by decide) (by decide)

/-- C20 (amended): for every triple of non-negative ints `(i, p, r)` and every
positive int `k` with `100 * k * (i + p + r) ≤ 2 ^ 53`,
`ratio(k*i, k*p, k*r) == ratio(i, p, r)`. -/
theorem ratio_scale_invariant (i p r k : Int) (hi : 0 ≤ i) (hp : 0 ≤ p) (hr : 0 ≤ r)
    (hk : 0 < k) (hb : 100 * (k * (i + p + r)) ≤ 2 ^ 53) :
    ratio [k * i, k * p, k * r] = ratio [i, p, r] := by
  rcases eq_or_lt_of_le (by omega : 0 ≤ i + p + r) with h0 | hT
  · have e1 : i = 0 := by omega
    have e2 : p = 0 := by omega
    have e3 : r = 0 := by omega
    subst e1 e2 e3
    simp
  · have hkT : i + p + r ≤ k * (i + p + r) := by nlinarith
    have hs1 : [i, p, r].sum = i + p + r := by simp [add_assoc]
    have hs2 : [k * i, k * p, k * r].sum = k * (i + p + r) := by
      simp only [List.sum_cons, List.sum_nil]
      ring
    have hnn1 : ∀ n ∈ [i, p, r], 0 ≤ n := by
      intro n hn
      simp only [List.mem_cons, List.mem_singleton, List.not_mem_nil, or_false] at hn
      rcases hn with rfl | rfl | rfl <;> assumption
    have hnn2 : ∀ n ∈ [k * i, k * p, k * r], 0 ≤ n := by
      intro n hn
      simp only [List.mem_cons, List.mem_singleton, List.not_mem_nil, or_false] at hn
      rcases hn with rfl | rfl | rfl <;> positivity
    rw [ratio_of_exact _ hnn1 (by rw [hs1]; omega) (by rw [hs1]; omega),
      ratio_of_exact _ hnn2 (by rw [hs2]; nlinarith) (by rw [hs2]; exact hb), hs1, hs2]
    have hkq : (k : ℚ) ≠ 0 := by
      have : (0 : ℚ) < k := by exact_mod_cast hk
      exact ne_of_gt this
    have hTq : ((i + p + r : ℤ) : ℚ) ≠ 0 := by
      have : (0 : ℚ) < ((i + p + r : ℤ) : ℚ) := by exact_mod_cast hT
      exact ne_of_gt this
    have key : ∀ n : ℤ, 100 * ((k * n : ℤ) : ℚ) / ((k * (i + p + r) : ℤ) : ℚ) =
        100 * (n : ℚ) / ((i + p + r : ℤ) : ℚ) := by
      intro n
      push_cast at hTq ⊢
      field_simp
      ring
    simp only [List.map_cons, List.map_nil, key]

/-- Witness of C20 at the counts `(6, 5, 10)` and `k = 1000`. -/
theorem ratio_scale_invariant_witness :
    ratio [1000 * 6, 1000 * 5, 1000 * 10] = ratio [6, 5, 10] :=
  ratio_scale_invariant 6 5 10 1000 (by decide) (by decide) (by decide) (by decide) (by decide)

/-- Counterexample to C20 as stated: `ratio(3, 5, 0)` is `(38, 63, 0)`, but with
`k = 90071992547361` the product `100 * float64(5 * k)` is rounded down in
binary64, the quotient falls below `62.5`, and `ratio(3*k, 5*k, 0)` is
`(38, 62, 0)`. -/
theorem ratio_not_scale_invariant :
    (90071992547361 : Int) * 3 = 270215977642083 ∧
      (90071992547361 : Int) * 5 = 450359962736805 ∧
      InInt 270215977642083 ∧ InInt 450359962736805 ∧
      ratio [3, 5, 0] = [38, 63, 0] ∧
      ratio [270215977642083, 450359962736805, 0] = [38, 62, 0] := by
  refine ⟨by decide, by decide, by decide, by decide, by decide!, by decide!⟩

/-! ## Times in a location -/

theorem zonedDate_fixed (year month day secOfDay : Int) (nsec : Nat) (loc : Location)
    (offset : Int) (hfix : ∀ sec, (loc.lookup sec).1 = offset) :
    zonedDate year month day secOfDay nsec loc =
      ⟨(timeDate year month day 0).day * 86400 + secOfDay - offset, nsec, loc⟩ := by
  unfold zonedDate
  simp only [hfix, ite_self]
  by_cases h0 : offset = 0
  · simp [h0]
  · simp [h0]

theorem ZonedTime.AddDate_fixed (t : ZonedTime) (offset : Int)
    (hfix : ∀ sec, (t.loc.lookup sec).1 = offset) (years months days : Int) :
    t.AddDate years months days =
      ⟨(Time.AddDate ⟨(t.unix + offset) / 86400, 0⟩ years months days).day * 86400
        + (t.unix + offset) % 86400 - offset, t.nsec, t.loc⟩ := by
  unfold ZonedTime.AddDate
  simp only [hfix]
  rw [zonedDate_fixed _ _ _ _ _ _ offset hfix]
  rfl

theorem ZonedTime.weekAgo_fixed (t : ZonedTime) (offset : Int)
    (hfix : ∀ sec, (t.loc.lookup sec).1 = offset) :
    t.weekAgo = ⟨t.unix - 604800, t.nsec, t.loc⟩ := by
  unfold ZonedTime.weekAgo
  rw [ZonedTime.AddDate_fixed t offset hfix, AddDate_days]
  simp only
  congr 1
  omega

theorem ZonedTime.monthAgo_fixed (t : ZonedTime) (offset : Int)
    (hfix : ∀ sec, (t.loc.lookup sec).1 = offset) :
    ∃ k : Int, 28 ≤ k ∧ k ≤ 31 ∧ t.monthAgo = ⟨t.unix - k * 86400, t.nsec, t.loc⟩ := by
  obtain ⟨k, h1, h2, h3⟩ := monthAgo_eq ⟨(t.unix + offset) / 86400, 0⟩
  refine ⟨k, h1, h2, ?_⟩
  unfold ZonedTime.monthAgo
  unfold GhAct.monthAgo at h3
  rw [ZonedTime.AddDate_fixed t offset hfix, h3]
  simp only
  congr 1
  omega

theorem ZonedTime.yearAgo_fixed (t : ZonedTime) (offset : Int)
    (hfix : ∀ sec, (t.loc.lookup sec).1 = offset) :
    ∃ k : Int, 365 ≤ k ∧ k ≤ 366 ∧ t.yearAgo = ⟨t.unix - k * 86400, t.nsec, t.loc⟩ := by
  obtain ⟨k, h1, h2, h3⟩ := yearAgo_eq ⟨(t.unix + offset) / 86400, 0⟩
  refine ⟨k, h1, h2, ?_⟩
  unfold ZonedTime.yearAgo
  unfold GhAct.yearAgo at h3
  rw [ZonedTime.AddDate_fixed t offset hfix, h3]
  simp only
  congr 1
  omega

theorem ZonedTime.wall_AddDate_fixed (t : ZonedTime) (offset : Int)
    (hfix : ∀ sec, (t.loc.lookup sec).1 = offset) (years months days : Int) :
    (t.AddDate years months days).wall = t.wall.AddDate years months days := by
  rw [ZonedTime.AddDate_fixed t offset hfix]
  unfold ZonedTime.wall
  simp only [hfix]
  have e : ∀ (d : Int) (n m : Nat), Time.AddDate ⟨d, n⟩ years months days =
      ⟨(Time.AddDate ⟨d, m⟩ years months days).day, n⟩ := fun _ _ _ => rfl
  have h1 : ((Time.AddDate ⟨(t.unix + offset) / 86400, 0⟩ years months days).day * 86400
      + (t.unix + offset) % 86400 - offset + offset) / 86400 =
      (Time.AddDate ⟨(t.unix + offset) / 86400, 0⟩ years months days).day := by omega
  have h2 : ((Time.AddDate ⟨(t.unix + offset) / 86400, 0⟩ years months days).day * 86400
      + (t.unix + offset) % 86400 - offset + offset) % 86400 = (t.unix + offset) % 86400 := by
    omega
  rw [h1, h2]
  exact (e _ _ 0).symm

theorem ZonedTime.wall_step_nsec (t : ZonedTime) (offset : Int)
    (hfix : ∀ sec, (t.loc.lookup sec).1 = offset) :
    t.weekAgo.wall.nsec = t.wall.nsec ∧ t.monthAgo.wall.nsec = t.wall.nsec ∧
      t.yearAgo.wall.nsec = t.wall.nsec := by
  unfold ZonedTime.weekAgo ZonedTime.monthAgo ZonedTime.yearAgo
  rw [ZonedTime.wall_AddDate_fixed t offset hfix, ZonedTime.wall_AddDate_fixed t offset hfix,
    ZonedTime.wall_AddDate_fixed t offset hfix]
  exact ⟨(step_back GhAct.weekAgo (Or.inl rfl) t.wall).2,
    (step_back GhAct.monthAgo (Or.inr (Or.inl rfl)) t.wall).2,
    (step_back GhAct.yearAgo (Or.inr (Or.inr rfl)) t.wall).2⟩

/-! ## Claims about the windows of a time in its location -/

/-- C6 (amended): over any client `getActivities` queries the current window,
from `fn(now)` to `now`, first, and then, once that query has returned without an
error, the previous window, from `fn(fn(now))` to `fn(now)`, which ends where
the current window starts; with the week step and a time in a location with a
fixed offset from UTC the current window starts exactly 7 days and the previous
window exactly 14 days before `now`, on the calendar and on the clock alike. -/
theorem getActivities_windows {σ ε : Type} (client : GQLClient σ ε) (now : Time) (fn : agoFn)
    (s : σ) (t : ZonedTime) (offset : Int) (hfix : ∀ sec, (t.loc.lookup sec).1 = offset) :
    (getActivities (recording client) now fn ([], s)).2.1 =
        queryVariables (fn now) now ::
          (if (client (queryVariables (fn now) now) s).1.2.isNone
            then [queryVariables (fn (fn now)) (fn now)] else []) ∧
      t.weekAgo = ⟨t.unix - 7 * 86400, t.nsec, t.loc⟩ ∧
      t.weekAgo.weekAgo = ⟨t.unix - 14 * 86400, t.nsec, t.loc⟩ ∧
      t.weekAgo.wall = ⟨t.wall.day - 7, t.wall.nsec⟩ ∧
      t.weekAgo.weekAgo.wall = ⟨t.wall.day - 14, t.wall.nsec⟩ ∧
      weekAgo now = ⟨now.day - 7, now.nsec⟩ ∧
      weekAgo (weekAgo now) = ⟨now.day - 14, now.nsec⟩ := by
  have h1 := ZonedTime.weekAgo_fixed t offset hfix
  have hfix2 : ∀ sec, (t.weekAgo.loc.lookup sec).1 = offset := by
    rw [h1]
    exact hfix
  have h2 := ZonedTime.weekAgo_fixed t.weekAgo offset hfix2
  have hw1 : t.weekAgo.wall = weekAgo t.wall :=
    ZonedTime.wall_AddDate_fixed t offset hfix 0 0 (-7)
  have hw2 : t.weekAgo.weekAgo.wall = weekAgo t.weekAgo.wall :=
    ZonedTime.wall_AddDate_fixed t.weekAgo offset hfix2 0 0 (-7)
  have e14 : ∀ u : Time, weekAgo (weekAgo u) = ⟨u.day - 14, u.nsec⟩ := by
    intro u
    rw [weekAgo_eq, weekAgo_eq]
    simp only [Time.mk.injEq, and_true]
    omega
  refine ⟨getActivities_recording_log client now fn s, ?_, ?_, ?_, ?_, weekAgo_eq now, e14 now⟩
  · rw [h1]
    norm_num
  · rw [h2, h1]
    simp only
    congr 1
    omega
  · rw [hw1, weekAgo_eq]
  · rw [hw2, hw1, e14]

/-- Witness of C6: a time in the fixed zone five hours west of UTC. -/
theorem getActivities_windows_witness :
    (ZonedTime.weekAgo ⟨1710649800, 0, fixedZone (-18000)⟩).unix = 1710649800 - 7 * 86400 ∧
      (ZonedTime.weekAgo ⟨1710649800, 0, fixedZone (-18000)⟩).wall =
        ⟨(ZonedTime.mk 1710649800 0 (fixedZone (-18000))).wall.day - 7,
          (ZonedTime.mk 1710649800 0 (fixedZone (-18000))).wall.nsec⟩ :=
  ⟨congrArg ZonedTime.unix
      (getActivities_windows (fun (_ : QueryVars) (u : Unit) =>
        ((⟨6, 5, 10⟩, (none : Option String)), u)) (timeDate 2024 3 15 0) weekAgo ()
        ⟨1710649800, 0, fixedZone (-18000)⟩ (-18000) (fun _ => rfl)).2.1,
    (getActivities_windows (fun (_ : QueryVars) (u : Unit) =>
        ((⟨6, 5, 10⟩, (none : Option String)), u)) (timeDate 2024 3 15 0) weekAgo ()
        ⟨1710649800, 0, fixedZone (-18000)⟩ (-18000) (fun _ => rfl)).2.2.2.1⟩

/-- Counterexample to C6 as stated: in the location `America/Havana` the week
step from 2024-03-17 00:30 does not start the current window 7 days earlier on
the calendar: the reading 2024-03-10 00:30 falls into the hour left out when
daylight time begins, and `time.Date` resolves it to 2024-03-09 23:30, eight
dates before `now`; and from 2024-03-13 12:00 the current window starts on
2024-03-06 at 12:00 but only 167 hours, not 7 days, before `now`. -/
theorem weekAgo_across_zone_transition :
    dateToStr (ZonedTime.mk 1710649800 0 havana).wall = "2024-03-17" ∧
      (ZonedTime.mk 1710649800 0 havana).wall.nsec = 1800 * 1000000000 ∧
      dateToStr (ZonedTime.weekAgo ⟨1710649800, 0, havana⟩).wall = "2024-03-09" ∧
      (ZonedTime.weekAgo ⟨1710649800, 0, havana⟩).wall.nsec = 84600 * 1000000000 ∧
      dateToStr (weekAgo (ZonedTime.mk 1710649800 0 havana).wall) = "2024-03-10" ∧
      dateToStr (ZonedTime.mk 1710345600 0 havana).wall = "2024-03-13" ∧
      dateToStr (ZonedTime.weekAgo ⟨1710345600, 0, havana⟩).wall = "2024-03-06" ∧
      (ZonedTime.weekAgo ⟨1710345600, 0, havana⟩).wall.nsec
        = (ZonedTime.mk 1710345600 0 havana).wall.nsec ∧
      1710345600 - (ZonedTime.weekAgo ⟨1710345600, 0, havana⟩).unix = 167 * 3600 := by
  refine ⟨by decide, by decide, by decide, by decide, by decide, by decide, by decide,
    by decide, by decide⟩

/-- C14 (amended): for a time in a location with a fixed offset from UTC, with
the week step the previous window is as long as the current one, 7 days of 24
hours each; with the month step each of the two windows is one calendar month
long, between 28 and 31 days, and with the year step one calendar year long, 365
or 366 days, so that their lengths can differ; every step keeps the time of
day. -/
theorem window_lengths (t : ZonedTime) (offset : Int)
    (hfix : ∀ sec, (t.loc.lookup sec).1 = offset) :
    (t.unix - t.weekAgo.unix = 7 * 86400 ∧
        t.weekAgo.unix - t.weekAgo.weekAgo.unix = 7 * 86400) ∧
      (∃ k1 k2 : Int, 28 ≤ k1 ∧ k1 ≤ 31 ∧ 28 ≤ k2 ∧ k2 ≤ 31 ∧
        t.unix - t.monthAgo.unix = k1 * 86400 ∧
        t.monthAgo.unix - t.monthAgo.monthAgo.unix = k2 * 86400) ∧
      (∃ k1 k2 : Int, 365 ≤ k1 ∧ k1 ≤ 366 ∧ 365 ≤ k2 ∧ k2 ≤ 366 ∧
        t.unix - t.yearAgo.unix = k1 * 86400 ∧
        t.yearAgo.unix - t.yearAgo.yearAgo.unix = k2 * 86400) ∧
      (t.weekAgo.nsec = t.nsec ∧ t.monthAgo.nsec = t.nsec ∧ t.yearAgo.nsec = t.nsec) ∧
      (t.weekAgo.wall.nsec = t.wall.nsec ∧ t.monthAgo.wall.nsec = t.wall.nsec ∧
        t.yearAgo.wall.nsec = t.wall.nsec) := by
  have w1 := ZonedTime.weekAgo_fixed t offset hfix
  have hfw : ∀ sec, (t.weekAgo.loc.lookup sec).1 = offset := by
    rw [w1]
    exact hfix
  have w2 := ZonedTime.weekAgo_fixed t.weekAgo offset hfw
  obtain ⟨k1, a1, b1, m1⟩ := ZonedTime.monthAgo_fixed t offset hfix
  have hfm : ∀ sec, (t.monthAgo.loc.lookup sec).1 = offset := by
    rw [m1]
    exact hfix
  obtain ⟨k2, a2, b2, m2⟩ := ZonedTime.monthAgo_fixed t.monthAgo offset hfm
  obtain ⟨j1, c1, d1, y1⟩ := ZonedTime.yearAgo_fixed t offset hfix
  have hfy : ∀ sec, (t.yearAgo.loc.lookup sec).1 = offset := by
    rw [y1]
    exact hfix
  obtain ⟨j2, c2, d2, y2⟩ := ZonedTime.yearAgo_fixed t.yearAgo offset hfy
  refine ⟨⟨?_, ?_⟩, ⟨k1, k2, a1, b1, a2, b2, ?_, ?_⟩, ⟨j1, j2, c1, d1, c2, d2, ?_, ?_⟩,
    ⟨by rw [w1], by rw [m1], by rw [y1]⟩, ZonedTime.wall_step_nsec t offset hfix⟩
  · rw [w1]
    simp only
    omega
  · rw [w2]
    simp only
    omega
  · rw [m1]
    simp only
    omega
  · rw [m2]
    simp only
    omega
  · rw [y1]
    simp only
    omega
  · rw [y2]
    simp only
    omega

/-- Witness of C14: a time in the fixed zone five hours west of UTC. -/
theorem window_lengths_witness :
    (1710649800 : Int) - (ZonedTime.weekAgo ⟨1710649800, 0, fixedZone (-18000)⟩).unix
        = 7 * 86400 ∧
      (ZonedTime.weekAgo ⟨1710649800, 0, fixedZone (-18000)⟩).unix
          - (ZonedTime.weekAgo (ZonedTime.weekAgo ⟨1710649800, 0, fixedZone (-18000)⟩)).unix
        = 7 * 86400 :=
  (window_lengths ⟨1710649800, 0, fixedZone (-18000)⟩ (-18000) (fun _ => rfl)).1

/-- In a location with zone transitions the two windows of the week step need
not be equally long either: in `America/New_York` from 2024-03-13 12:00 the
current window is 167 hours long and the previous one 168 hours. -/
theorem week_windows_across_zone_transition :
    dateToStr (ZonedTime.mk 1710345600 0 newYork).wall = "2024-03-13" ∧
      (ZonedTime.mk 1710345600 0 newYork).wall.nsec = 43200 * 1000000000 ∧
      1710345600 - (ZonedTime.weekAgo ⟨1710345600, 0, newYork⟩).unix = 167 * 3600 ∧
      (ZonedTime.weekAgo ⟨1710345600, 0, newYork⟩).unix
          - (ZonedTime.weekAgo (ZonedTime.weekAgo ⟨1710345600, 0, newYork⟩)).unix
        = 168 * 3600 := by
  refine ⟨by decide, by decide, by decide, by decide⟩

end GhAct
